import Mathlib

/-!
Shallow embedding of the csvex source (an interactive CSV viewer) used to
check the natural-language specification against the code.

Conventions of the embedding:
* Rust byte strings (Vec<u8>, BStr) and Rust strings are both modelled as
  List Char; byte values and character values coincide on the ASCII inputs
  every theorem uses, and byte offsets are modelled as character offsets.
* Machine integers are modelled as Nat, with an explicit `% 2 ^ 32` at the
  one place where u32 overflow matters (Compiler::parse_range).
* Fallible Rust code (Result) is modelled with Except; panics that the
  source can reach are modelled as error values and noted in comments.
* External crates (csv_core, regex, rust_decimal) are not source of this
  repository; where their behaviour is needed it is modelled from their
  documented contract and marked in the doc comment.
-/

namespace Csvex

/-- Byte strings (Rust Vec<u8> / BStr) modelled as lists of characters. -/
abbrev ByteStr := List Char

/-- Model of bstr/char whitespace used by trimming and the filter lexer
(ASCII whitespace; coincides with Rust on all inputs used here). -/
def isWs (c : Char) : Bool := c = ' ' || c = '\t' || c = '\n' || c = '\r'

/-- Model of BStr::trim: remove leading and trailing whitespace. -/
def trimBytes (s : ByteStr) : ByteStr :=
  ((s.dropWhile isWs).reverse.dropWhile isWs).reverse

/- ------------------------------------------------------------------ -/
/- fmt.rs: quantity (claim C10)                                       -/
/- ------------------------------------------------------------------ -/

/-- Decimal digit string of a natural number (Rust write!(buff, "{nb}")). -/
def natDigits (n : Nat) : List Char := Nat.toDigits 10 n

/-- The while loop of fmt.rs quantity:
while c > 3 { buff.insert(c, underscore); c -= 3 } — note the source
inserts at position c BEFORE decrementing c. The guard c > 3 is expressed
as the pattern c = k + 4, and c - 3 as k + 1. -/
def quantityLoop : List Char → Nat → List Char
  | buff, k + 4 => quantityLoop (buff.insertIdx (k + 4) '_') (k + 1)
  | buff, _ => buff

/-- fmt.rs quantity: render nb in decimal then run the insertion loop
starting from c = buff.len(). -/
def quantity (nb : Nat) : List Char :=
  let buff := natDigits nb
  quantityLoop buff buff.length

/-- Reference formatting the spec describes: underscore between every group
of three digits counted from the right (defined from the spec's words, for
comparison with the source function). -/
def quantitySpec (nb : Nat) : List Char :=
  let ds := natDigits nb
  let grouped :=
    (ds.reverse.toChunks 3).intersperse ['_']
  (grouped.flatten).reverse

/- ------------------------------------------------------------------ -/
/- source.rs: sniff_delimiter (claim C3)                               -/
/- ------------------------------------------------------------------ -/

/-- The candidate delimiters, in the order the source lists them. -/
def DELIMITER : List Char := [',', ';', ':', '|', '_']

/-- One step of the counting loop: bump the counter of the candidate equal
to c, if any (source.rs lines 129-137). -/
def bumpCounter (counter : List Nat) (c : Char) : List Nat :=
  (counter.zip DELIMITER).map (fun p => if p.2 = c then p.1 + 1 else p.1)

/-- Count candidate occurrences in the bytes before the first line feed. -/
def countDelims : List Nat → List Char → List Nat
  | counter, [] => counter
  | counter, c :: rest =>
    if c = '\n' then counter else countDelims (bumpCounter counter c) rest

/-- Model of Iterator::max_by_key over (count, delimiter) pairs: when
several counts are equally maximal, Rust returns the LAST such element. -/
def maxByKeyLast : List (Nat × Char) → Option (Nat × Char)
  | [] => none
  | p :: rest =>
    match maxByKeyLast rest with
    | none => some p
    | some q => if q.1 ≥ p.1 then some q else some p

/-- source.rs / read.rs sniff_delimiter on the first line of the file:
count each candidate up to the first line feed and take max_by_key,
falling back to comma only when the candidate list itself is empty
(which never happens). -/
def sniff_delimiter (firstLine : List Char) : Char :=
  let counter := countDelims (DELIMITER.map (fun _ => 0)) firstLine
  match maxByKeyLast (counter.zip DELIMITER) with
  | some (_, d) => d
  | none => ','

/- ------------------------------------------------------------------ -/
/- filter/compiler.rs: Compiler::parse_range (claim C5)                -/
/- ------------------------------------------------------------------ -/

/-- u32::MAX. -/
def u32Max : Nat := 4294967295

/-- Token kinds of the lexer that filter/compiler.rs consumes (the subset
parse_range looks at; SepRangeLen is the tilde, SepRangeEnd the colon). -/
inductive CTokenKind where
  | openRange | closeRange | sepRangeLen | sepRangeEnd | nb | eof | other
deriving DecidableEq, Repr

/-- A lexed token as Compiler::parse_range sees it: kind, source text and
byte span. -/
structure CTok where
  kind : CTokenKind
  str : List Char
  spanStart : Nat
  spanEnd : Nat
deriving DecidableEq, Repr

/-- The token the lexer yields at end of input. -/
def ctokEof : CTok := ⟨.eof, [], 0, 0⟩

/-- peek on the compiler's pull lexer, modelled over the remaining tokens. -/
def peekC (ts : List CTok) : CTok := ts.headD ctokEof

/-- Model of str::parse::<u32>: all-digit, non-empty, value within u32
(Rust's parse fails on overflow). -/
def parseU32 (s : List Char) : Option Nat :=
  if s ≠ [] ∧ s.all Char.isDigit then
    let v := s.foldl (fun a c => a * 10 + (c.toNat - 48)) 0
    if v ≤ u32Max then some v else none
  else none

/-- Compile errors are a byte range plus a static message. -/
abbrev CErr := (Nat × Nat) × List Char

/-- filter/compiler.rs Compiler::parse_range (lines 226-282), over the
token stream: returns the compiled (start, end) pair and the tokens left.
u32 arithmetic of start+1 and start+len wraps modulo 2^32 (release-mode
overflow semantics). -/
def Compiler.parse_range (ts : List CTok) :
    Except CErr ((Nat × Nat) × List CTok) :=
  let token := peekC ts
  if token.kind = .openRange then
    let ts := ts.tail
    -- parse range start
    let token := peekC ts
    let spanStart := token.spanStart
    let startRes : Except CErr (Option Nat × List CTok) :=
      if token.kind = .nb then
        match parseU32 token.str with
        | some n => .ok (some n, ts.tail)
        | none => .error ((token.spanStart, token.spanEnd), "Expect range start".toList)
      else .ok (none, ts)
    match startRes with
    | .error e => .error e
    | .ok (start, ts) =>
      -- parse range separator
      let token := peekC ts
      let (sep, ts) :=
        if token.kind = .sepRangeLen then (some true, ts.tail)
        else if token.kind = .sepRangeEnd then (some false, ts.tail)
        else (none, ts)
      -- parse range end
      let token := peekC ts
      let endRes : Except CErr (Option Nat × List CTok) :=
        if token.kind = .nb then
          match parseU32 token.str with
          | some n => .ok (some n, ts.tail)
          | none => .error ((token.spanStart, token.spanEnd), "Expect range end".toList)
        else .ok (none, ts)
      match endRes with
      | .error e => .error e
      | .ok (end_, ts) =>
        let token := peekC ts
        let spanEnd := token.spanEnd
        if token.kind = .closeRange then
          let ts := ts.tail
          match start, sep, end_ with
          | some s, none, none => .ok ((s, (s + 1) % 2 ^ 32), ts)
          | some s, some true, some l => .ok ((s, (s + l) % 2 ^ 32), ts)
          | some s, some true, none => .ok ((s, u32Max), ts)
          | none, some true, some l => .ok ((0, l), ts)
          | some s, some false, some e =>
            if s ≤ e then .ok ((s, e), ts)
            else .error ((spanStart, spanEnd), "Invalid range".toList)
          | _, _, _ => .error ((spanStart, spanEnd), "Invalid range".toList)
        else .error ((token.spanStart, token.spanEnd), "Expect ]".toList)
  else .ok ((0, u32Max), ts)

/- ------------------------------------------------------------------ -/
/- reader.rs: NestedString::read_record trailing-field collapse (C9)   -/
/- ------------------------------------------------------------------ -/

/-- Modelled from the spec: the embedded csv_core decoder (an external
crate) splits one record line on the delimiter; quoting is not exercised
by any theorem here. n delimiters yield n+1 fields. -/
def splitFields (d : Char) : List Char → List (List Char)
  | [] => [[]]
  | c :: rest =>
    if c = d then [] :: splitFields d rest
    else
      match splitFields d rest with
      | f :: fs => (c :: f) :: fs
      | [] => [[c]]

/-- reader.rs lines 153-158: after decoding, if the record has more than
one field (bounds.len() > 2) and the last field is empty (the last two
bounds coincide), drop the last field. -/
def collapseTrailing (fs : List (List Char)) : List (List Char) :=
  if fs.length > 1 ∧ fs.getLast? = some [] then fs.dropLast else fs

/-- reader.rs NestedString::read_record on one line: decode the fields,
then collapse a single trailing empty field. -/
def read_record (d : Char) (line : List Char) : List (List Char) :=
  collapseTrailing (splitFields d line)

/- ------------------------------------------------------------------ -/
/- fmt.rs: Ty::guess and source.rs / read.rs sniff_has_header (C4)     -/
/- ------------------------------------------------------------------ -/

/-- Numeric value of a digit string. -/
def digitsVal (l : List Char) : Nat :=
  l.foldl (fun a c => a * 10 + (c.toNat - 48)) 0

/-- Modelled from the rust_decimal crate (external): parse a decimal
literal into (mantissa, scale); optional sign, digits, at most one point,
at least one digit. "1.50" parses to (150, 2) — the scale is kept. -/
def parseDecimalM (s : List Char) : Option (Int × Nat) :=
  let (neg, rest) :=
    match s with
    | '-' :: r => (true, r)
    | '+' :: r => (false, r)
    | r => (false, r)
  let intPart := rest.takeWhile Char.isDigit
  let after := rest.dropWhile Char.isDigit
  let signed : Nat → Nat → Option (Int × Nat) := fun m sc =>
    some (if neg then -(m : Int) else (m : Int), sc)
  match after with
  | [] => if intPart = [] then none else signed (digitsVal intPart) 0
  | '.' :: frac =>
    if frac.all Char.isDigit ∧ (intPart ≠ [] ∨ frac ≠ []) then
      signed (digitsVal (intPart ++ frac)) frac.length
    else none
  | _ => none

/-- Modelled from the rust_decimal crate (external): Display of a decimal
value, used by Ty::guess to measure lhs/rhs digit widths. -/
def renderDecimalM (m : Int) (scale : Nat) : List Char :=
  let sign : List Char := if m < 0 then ['-'] else []
  let dg := natDigits m.natAbs
  if scale = 0 then sign ++ dg
  else
    let dg := if dg.length ≤ scale
      then List.replicate (scale + 1 - dg.length) '0' ++ dg else dg
    sign ++ dg.take (dg.length - scale) ++ ['.'] ++ dg.drop (dg.length - scale)

/-- fmt.rs Ty: Boolean, Number (decimal value plus the width of the digits
before and after the point), or String. Equality is structural, like the
derived PartialEq of the source. -/
inductive Ty where
  | bool (b : Bool)
  | nb (m : Int) (scale : Nat) (lhs rhs : Nat)
  | str
deriving DecidableEq, Repr

/-- fmt.rs Ty::is_str. -/
def Ty.is_str : Ty → Bool
  | .str => true
  | _ => false

/-- fmt.rs Ty::guess: trim the field; empty fields are String; then a
decimal parse wins (recording lhs = everything before the point of the
rendered value, rhs = the rest), then the true/false spellings, else
String. (The source's UTF-8 check cannot fail in the character model.) -/
def Ty.guess (s : ByteStr) : Ty :=
  let s := trimBytes s
  if s = [] then .str
  else
    match parseDecimalM s with
    | some (m, sc) =>
      let r := renderDecimalM m sc
      let lhs := (r.takeWhile (fun c => c ≠ '.')).length
      let rhs := r.length - lhs
      .nb m sc lhs rhs
    | none =>
      if s = "true".toList ∨ s = "True".toList ∨ s = "TRUE".toList then
        .bool true
      else if s = "false".toList ∨ s = "False".toList ∨ s = "FALSE".toList
        then .bool false
      else .str

/-- First loop of source.rs sniff_has_header (lines 153-167): iterate the
header record (NestedString::iter yields trimmed fields), reject on a
second empty field, collect the guessed types. An early Ok(false) return
is the error branch. -/
def headerScan : List ByteStr → Bool → List Ty → Except Bool (List Ty)
  | [], _, acc => .ok acc.reverse
  | f :: rest, foundEmpty, acc =>
    let f := trimBytes f
    if f = [] then
      if foundEmpty then .error false
      else headerScan rest true (Ty.guess f :: acc)
    else headerScan rest foundEmpty (Ty.guess f :: acc)

/-- Second loop plus tail of source.rs sniff_has_header (lines 169-190):
walk the first data record; an all-String header with a non-String data
field returns true; track whether the type vectors agree; after the loop
the source returns false both when the vectors agree on non-String types
AND in the residual case (despite the comment "default CSV commonly have
headers"). none models the index panic when the data record is longer
than the header. -/
def dataScan (tys : List Ty) (allStr : Bool) :
    List ByteStr → Nat → Bool → Option Bool
  | [], _, allSame =>
    if allSame ∧ ¬ allStr then some false
    else
      -- residual case: the source's final expression is Ok(false)
      some false
  | f :: rest, i, allSame =>
    let ty := Ty.guess (trimBytes f)
    if allStr ∧ ¬ ty.is_str then some true
    else
      match tys[i]? with
      | none => none
      | some t => dataScan tys allStr rest (i + 1) (allSame ∧ ty = t)

/-- source.rs sniff_has_header on the two decoded records. -/
def sniff_has_header_source (h r1 : List ByteStr) : Option Bool :=
  match headerScan h false [] with
  | .error b => some b
  | .ok tys => dataScan tys (tys.all Ty.is_str) r1 0 true

/-- Type classes of read.rs sniffing::TY. -/
inductive TY where
  | string | number | bool
deriving DecidableEq, Repr

/-- Model of str::parse::<bool>: exactly "true" or "false". -/
def parseBoolOk (s : List Char) : Bool :=
  s = "true".toList || s = "false".toList

/-- Modelled from the Rust standard library (external): recognizer for
str::parse::<f64> — optional sign, digits with at most one point and at
least one digit, optional exponent, or the inf/infinity/nan spellings. -/
def parseF64Ok (s : List Char) : Bool :=
  let body := match s with
    | '+' :: r => r
    | '-' :: r => r
    | r => r
  let mant := body.takeWhile (fun c => c.isDigit || c = '.')
  let rest := body.dropWhile (fun c => c.isDigit || c = '.')
  let mantOk := mant.any Char.isDigit &&
    (mant.filter (fun c => c = '.')).length ≤ 1
  let expOk := match rest with
    | [] => true
    | 'e' :: r =>
      let r2 := match r with
        | '+' :: rr => rr
        | '-' :: rr => rr
        | rr => rr
      r2 ≠ [] && r2.all Char.isDigit
    | 'E' :: r =>
      let r2 := match r with
        | '+' :: rr => rr
        | '-' :: rr => rr
        | rr => rr
      r2 ≠ [] && r2.all Char.isDigit
    | _ => false
  let low := body.map Char.toLower
  (mantOk && expOk) ||
    (low = "inf".toList || low = "infinity".toList || low = "nan".toList)

/-- read.rs sniffing::sniff_ty: bool parse first, then f64, else String. -/
def sniff_ty (s : List Char) : TY :=
  if parseBoolOk s then .bool
  else if parseF64Ok s then .number
  else .string

/-- First loop of read.rs sniffing::sniff_has_header: any empty (trimmed)
header field rejects immediately. -/
def headerScanRead : List ByteStr → List TY → Except Bool (List TY)
  | [], acc => .ok acc.reverse
  | f :: rest, acc =>
    let f := trimBytes f
    if f = [] then .error false
    else headerScanRead rest (sniff_ty f :: acc)

/-- Second loop plus tail of read.rs sniffing::sniff_has_header — same
shape as the source.rs version, but the residual case returns true
("default CSV commonly have headers"). -/
def dataScanRead (tys : List TY) (allStr : Bool) :
    List ByteStr → Nat → Bool → Option Bool
  | [], _, allSame =>
    if allSame ∧ ¬ allStr then some false else some true
  | f :: rest, i, allSame =>
    let ty := sniff_ty (trimBytes f)
    if allStr ∧ ty ≠ .string then some true
    else
      match tys[i]? with
      | none => none
      | some t => dataScanRead tys allStr rest (i + 1) (allSame ∧ ty = t)

/-- read.rs sniffing::sniff_has_header on the two decoded records. -/
def sniff_has_header_read (h r1 : List ByteStr) : Option Bool :=
  match headerScanRead h [] with
  | .error b => some b
  | .ok tys => dataScanRead tys (tys.all (· = TY.string)) r1 0 true

/- ------------------------------------------------------------------ -/
/- histogram.rs: Histogram::register (claim C8)                        -/
/- ------------------------------------------------------------------ -/

/-- List indexing with a default (the unwraps of the source are guarded by
the invariant proved below, so the default is never produced from states
reachable by register). -/
def atD (l : List α) (i : Nat) (d : α) : α := (l[i]?).getD d

/-- Indexing into counts, entries (value_index, count). -/
def cAt (l : List (Nat × Nat)) (i : Nat) : Nat × Nat := atD l i (0, 0)

/-- Indexing into the insertion-ordered map, entries (key, count_index). -/
def vAt (l : List (ByteStr × Nat)) (i : Nat) : ByteStr × Nat := atD l i ([], 0)

/-- Overwrite the count_index stored for the i-th map entry
(IndexMap::get_index_mut followed by an assignment). -/
def setSnd (l : List (ByteStr × Nat)) (i : Nat) (v : Nat) :
    List (ByteStr × Nat) :=
  l.set i ((vAt l i).1, v)

/-- Iterator::rposition: index of the LAST element satisfying p. -/
def rpos (p : Nat × Nat → Bool) : List (Nat × Nat) → Option Nat
  | [] => none
  | a :: l =>
    match rpos p l with
    | some i => some (i + 1)
    | none => if p a then some 0 else none

/-- histogram.rs: the insertion-ordered value map plus the count vector
kept sorted by descending count. -/
structure Histogram where
  values : List (ByteStr × Nat)
  counts : List (Nat × Nat)

/-- Histogram::new. -/
def Histogram.empty : Histogram := ⟨[], []⟩

/-- The swap of histogram.rs lines 53-60: exchange counts[count_idx] and
counts[swap_idx], then patch the two map entries whose count_index
changed (the first patch uses value_idx read from counts[count_idx], the
second the value_index found at counts[count_idx] after the swap). -/
def swapStep (values : List (ByteStr × Nat)) (counts1 : List (Nat × Nat))
    (cidx s : Nat) : Histogram :=
  let a := cAt counts1 cidx
  let b := cAt counts1 s
  let counts2 := (counts1.set cidx b).set s a
  let values1 := setSnd values (cAt counts1 cidx).1 s
  let values2 := setSnd values1 (cAt counts2 cidx).1 cidx
  ⟨values2, counts2⟩

/-- histogram.rs lines 40-61 (the branch for an already-seen value):
increment the count in place; if the entry is now out of order, find the
insertion point with rposition (the index after the last count ≥ the new
count, or 0) and swap. -/
def registerBump (h : Histogram) (cidx : Nat) : Histogram :=
  let value_idx := (cAt h.counts cidx).1
  let count := (cAt h.counts cidx).2 + 1
  let counts1 := h.counts.set cidx (value_idx, count)
  if cidx ≠ 0 ∧ (cAt counts1 (cidx - 1)).2 < count then
    let s := ((rpos (fun q => decide (count ≤ q.2))
      (counts1.take cidx)).map (· + 1)).getD 0
    swapStep h.values counts1 cidx s
  else { values := h.values, counts := counts1 }

/-- histogram.rs lines 62-66: a new value is appended at the tail of
counts with count 1, and the map records its count_index. -/
def registerNew (h : Histogram) (v : ByteStr) : Histogram :=
  ⟨h.values ++ [(v, h.counts.length)], h.counts ++ [(h.values.length, 1)]⟩

/-- histogram.rs Histogram::register. -/
def Histogram.register (h : Histogram) (v : ByteStr) : Histogram :=
  match h.values.find? (fun p => p.1 == v) with
  | some (_, count_idx) => registerBump h count_idx
  | none => registerNew h v

/-- A whole sequence of register calls starting from the empty state. -/
def registerAll (vs : List ByteStr) : Histogram :=
  vs.foldl Histogram.register Histogram.empty

/-- counts is sorted by count in descending order. -/
def SortedD (l : List (Nat × Nat)) : Prop :=
  ∀ i k, i ≤ k → k < l.length → (cAt l k).2 ≤ (cAt l i).2

/-- For every key (by insertion position j), the two indirections resolve:
counts[values[j]] carries value_index j. -/
def Resolves (h : Histogram) : Prop :=
  ∀ j, j < h.values.length →
    (vAt h.values j).2 < h.counts.length ∧
      (cAt h.counts (vAt h.values j).2).1 = j

/-- The converse direction: every counts entry points at a map entry that
points back at it. -/
def CoResolves (h : Histogram) : Prop :=
  ∀ i, i < h.counts.length →
    (cAt h.counts i).1 < h.values.length ∧
      (vAt h.values (cAt h.counts i).1).2 = i

/-- Every stored count is at least one. -/
def PositiveC (h : Histogram) : Prop :=
  ∀ i, i < h.counts.length → 1 ≤ (cAt h.counts i).2

/-- The histogram invariant. -/
def Inv (h : Histogram) : Prop :=
  h.counts.length = h.values.length ∧ Resolves h ∧ CoResolves h ∧
    PositiveC h ∧ SortedD h.counts

/- ------------------------------------------------------------------ -/
/- filter/lexer.rs: the pull lexer (claims C1, C7)                     -/
/- ------------------------------------------------------------------ -/

/-- filter/lexer.rs CmpOp. -/
inductive CmpOp where
  | eq | ne | gt | lt | ge | le
deriving DecidableEq, Repr

/-- filter/lexer.rs LogiOp. -/
inductive LogiOp where
  | and | or
deriving DecidableEq, Repr

/-- filter/lexer.rs MatchOp. -/
inductive MatchOp where
  | all | any
deriving DecidableEq, Repr

/-- filter/lexer.rs TokenKind. -/
inductive TokenKind where
  | cmp (op : CmpOp)
  | logi (op : LogiOp)
  | matchOp (op : MatchOp)
  | matches
  | not
  | openExpr
  | closeExpr
  | openRange
  | closeRange
  | sepRange
  | openList
  | closeList
  | sepList
  | nb
  | str
  | id
  | eof
deriving DecidableEq, Repr

/-- filter/lexer.rs Token: kind, span (character offsets stand in for
byte offsets; identical on ASCII input) and source slice. -/
structure Token where
  kind : TokenKind
  spanStart : Nat
  spanEnd : Nat
  str : List Char
deriving DecidableEq, Repr

/-- Whitespace skip of lex_next: index of the first non-whitespace
character, and — faithfully reproducing the source's unwrap_or(0) — zero
when everything left is whitespace. -/
def untilWs (l : List Char) : Nat :=
  match l.findIdx? (fun c => !(isWs c)) with
  | some i => i
  | none => 0

/-- The two-character keywords of lex_next. -/
def twoCharKind (a b : Char) : Option TokenKind :=
  match a, b with
  | '=', '=' => some (.cmp .eq)
  | '!', '=' => some (.cmp .ne)
  | '>', '=' => some (.cmp .ge)
  | '<', '=' => some (.cmp .le)
  | '&', '&' => some (.logi .and)
  | '|', '|' => some (.logi .or)
  | _, _ => none

/-- The one-character keywords of lex_next. -/
def oneCharKind (a : Char) : Option TokenKind :=
  match a with
  | '>' => some (.cmp .gt)
  | '<' => some (.cmp .lt)
  | '~' => some .matches
  | '!' => some .not
  | '(' => some .openExpr
  | ')' => some .closeExpr
  | '{' => some .openList
  | '}' => some .closeList
  | '[' => some .openRange
  | ']' => some .closeRange
  | ',' => some .sepList
  | ':' => some .sepRange
  | _ => none

/-- The bareword keyword table of lex_next; an unrecognised word is a
number when it parses as a decimal, an identifier otherwise. -/
def barewordKind (s : List Char) : TokenKind :=
  if s = "eq".toList then .cmp .eq
  else if s = "ne".toList then .cmp .ne
  else if s = "gt".toList then .cmp .gt
  else if s = "lt".toList then .cmp .lt
  else if s = "ge".toList then .cmp .ge
  else if s = "le".toList then .cmp .le
  else if s = "and".toList then .logi .and
  else if s = "or".toList then .logi .or
  else if s = "all".toList then .matchOp .all
  else if s = "any".toList then .matchOp .any
  else if s = "matches".toList then .matches
  else if s = "not".toList then .not
  else if (parseDecimalM s).isSome then .nb
  else .id

/-- A quoted string token: up to and including the closing quote, or to
the end of the input (lex_next lines 153-159). -/
def strTok (rem rest : List Char) : TokenKind × Nat :=
  match rest.findIdx? (fun c => c = '"') with
  | some i => (.str, i + 2)
  | none => (.str, rem.length)

/-- A digit-run token (lex_next lines 160-165). -/
def nbTok (rem rest : List Char) : TokenKind × Nat :=
  match rest.findIdx? (fun c => !c.isDigit) with
  | some i => (.nb, i + 1)
  | none => (.nb, rem.length)

/-- A bareword token: up to the first non-alphanumeric character, then
classified by the keyword table (lex_next lines 166-193; isAlphanum
models Rust's is_alphanumeric on ASCII). -/
def idTok (rem rest : List Char) : TokenKind × Nat :=
  let len :=
    match rest.findIdx? (fun c => !c.isAlphanum) with
    | some i => i + 1
    | none => rem.length
  (barewordKind (rem.take len), len)

/-- The optional two-character keyword at the head of rem. -/
def twoOf (rem : List Char) : Option TokenKind :=
  match rem with
  | a :: b :: _ => twoCharKind a b
  | _ => none

/-- Kind and length of the token starting at the head of rem (the
remaining input after the whitespace skip): lex_next lines 111-197. -/
def tokCore (rem : List Char) : TokenKind × Nat :=
  match rem with
  | [] => (.eof, 0)
  | a :: rest =>
    match twoOf (a :: rest) with
    | some k => (k, 2)
    | none =>
      match oneCharKind a with
      | some k => (k, 1)
      | none =>
        if a = '"' then strTok (a :: rest) rest
        else if a.isDigit then nbTok (a :: rest) rest
        else idTok (a :: rest) rest

/-- lex_next as a pure function of the source and current offset. -/
def lexNextTok (src : List Char) (offset : Nat) : Token :=
  let u := untilWs (src.drop offset)
  let o := offset + u
  let kn := tokCore (src.drop o)
  ⟨kn.1, o, o + kn.2, (src.drop o).take kn.2⟩

/-- filter/lexer.rs Lexer state: current offset plus the peeked token
(the offset already stands past a peeked token, as in the source). -/
structure Lexer where
  offset : Nat
  peeked : Option Token
deriving Repr

/-- Lexer::load. -/
def Lexer.load : Lexer := ⟨0, none⟩

/-- Lexer::next. -/
def lexNext (src : List Char) (st : Lexer) : Token × Lexer :=
  match st.peeked with
  | some t => (t, ⟨st.offset, none⟩)
  | none =>
    let t := lexNextTok src st.offset
    (t, ⟨t.spanEnd, none⟩)

/-- Lexer::peek. -/
def lexPeek (src : List Char) (st : Lexer) : Token × Lexer :=
  match st.peeked with
  | some t => (t, st)
  | none =>
    let t := lexNextTok src st.offset
    (t, ⟨t.spanEnd, some t⟩)

/-- Lexer::take_kind. -/
def takeKind (src : List Char) (k : TokenKind) (st : Lexer) :
    Option Token × Lexer :=
  let (t, st1) := lexPeek src st
  if t.kind = k then
    let (t2, st2) := lexNext src st1
    (some t2, st2)
  else (none, st1)

/- ------------------------------------------------------------------ -/
/- filter/parser.rs: Filter compilation (claims C1, C2, C6)            -/
/- ------------------------------------------------------------------ -/

/-- parser.rs Id: a 1-based column index or a header name (byte range
into the filter source). -/
inductive FilterId where
  | idx (n : Nat)
  | name (spanStart spanEnd : Nat)
deriving DecidableEq, Repr

/-- parser.rs Value: a decimal constant (rust_decimal modelled as
mantissa and scale) or a source byte range. -/
inductive Value where
  | nb (m : Int) (scale : Nat)
  | str (spanStart spanEnd : Nat)
deriving DecidableEq, Repr

/-- Modelled from the regex crate (external): a compiled regex is its
pattern text; Regex::new never fails in the model and matching is
approximated by literal containment. No theorem depends on either. -/
def RegexM := List Char
deriving DecidableEq, Repr

/-- Trim the surrounding double quotes (str::trim_matches of the source,
removing every leading and trailing quote). -/
def trimQuotes (s : List Char) : List Char :=
  ((s.dropWhile (fun c => c = '"')).reverse.dropWhile
    (fun c => c = '"')).reverse

/-- Model of regex matching (external crate): literal containment. -/
def regexIsMatch (pat : RegexM) (s : ByteStr) : Bool :=
  decide (List.IsInfix (α := Char) pat s)

/-- parser.rs Node. -/
inductive Node where
  | exist (id : Nat)
  | cmp (id : Nat) (op : CmpOp) (m : MatchOp) (rs re : Nat)
  | matchN (id : Nat) (m : MatchOp) (rs re : Nat)
  | unary (negate : Bool) (child : Nat)
  | binary (lhs : Nat) (op : LogiOp) (rhs : Nat)
deriving DecidableEq, Repr

/-- parser.rs Filter. -/
structure Filter where
  values : List Value
  regex : List RegexM
  idx : List (FilterId × (Nat × Nat))
  nodes : List Node
  source : List Char
  start : Nat

/-- Parse errors: byte range plus static message. -/
abbrev PErr := (Nat × Nat) × List Char

/-- parser.rs Filter::parse_range (lines 235-270): the bracketed
byte-range suffix of a column reference; the single-index form [S]
produces the pair (S, S) in this version. -/
def fparse_range (src : List Char) (lx : Lexer) :
    Except PErr ((Nat × Nat) × Lexer) :=
  match takeKind src .openRange lx with
  | (none, lx) => .ok ((0, u32Max), lx)
  | (some _, lx) =>
    let pr := takeKind src .nb lx
    let startP := pr.1.map (fun t => ((t.spanStart, t.spanEnd), parseU32 t.str))
    let lx := pr.2
    let ps := takeKind src .sepRange lx
    let sep := ps.1.isSome
    let lx := ps.2
    let pe := takeKind src .nb lx
    let endP := pe.1.map (fun t => ((t.spanStart, t.spanEnd), parseU32 t.str))
    let lx := pe.2
    let pair : Except PErr (Nat × Nat) :=
      match startP, sep, endP with
      | some (span, none), _, _ =>
        .error (span, "Expected a start index".toList)
      | _, _, some (span, none) =>
        .error (span, "Expected an end index".toList)
      | some (sp1, _), false, some (sp2, _) =>
        .error ((sp1.1, sp2.2), "Missing span between index range".toList)
      | some (_, some s), false, none => .ok (s, s)
      | some (_, some s), true, none => .ok (s, u32Max)
      | none, true, some (_, some e) => .ok (0, e)
      | some (sp1, some s), true, some (sp2, some e) =>
        if s ≤ e then .ok (s, e)
        else .error ((sp1.1, sp2.2), "Expected start < end".toList)
      | none, true, none => .ok (0, u32Max)
      | _, _, _ =>
        .error ((lx.offset, lx.offset), "Expected range".toList)
    match pair with
    | .error e => .error e
    | .ok p =>
      match takeKind src .closeRange lx with
      | (none, lx) => .error ((lx.offset, lx.offset), "Expected ]".toList)
      | (some _, lx) => .ok (p, lx)

/-- The comma-separated tail of Filter::list. -/
def flistLoop {T : Type} (src : List Char)
    (parse : Lexer → Except PErr (T × Lexer)) :
    Nat → List T → Nat → Lexer → Except PErr (List T × Nat × Lexer)
  | 0, _, _, lx => .error ((lx.offset, lx.offset), "out of fuel".toList)
  | fuel + 1, vec, endIdx, lx =>
    match takeKind src .sepList lx with
    | (none, lx) => .ok (vec, endIdx, lx)
    | (some _, lx) =>
      match parse lx with
      | .error e => .error e
      | .ok (v, lx) => flistLoop src parse fuel (vec ++ [v]) vec.length lx

/-- parser.rs Filter::list (lines 272-305): optional all/any prefix,
optional brace-enclosed comma-separated element list. -/
def flist {T : Type} (src : List Char) (fuel : Nat)
    (parse : Lexer → Except PErr (T × Lexer))
    (vec : List T) (lx : Lexer) :
    Except PErr ((MatchOp × (Nat × Nat)) × List T × Lexer) :=
  let pk := lexPeek src lx
  let lx := pk.2
  let mopLx : Option MatchOp × Lexer :=
    match pk.1.kind with
    | .matchOp op => (some op, (lexNext src lx).2)
    | _ => (none, lx)
  let mop := mopLx.1
  let lx := mopLx.2
  let po := takeKind src .openList lx
  let lx := po.2
  let isList := po.1.isSome
  if ¬ isList ∧ mop.isSome then
    .error ((lx.offset, lx.offset), "Expected \x7b".toList)
  else
    match parse lx with
    | .error e => .error e
    | .ok (v, lx) =>
      let vec := vec ++ [v]
      let start := vec.length - 1
      match flistLoop src parse fuel vec start lx with
      | .error e => .error e
      | .ok (vec, endIdx, lx) =>
        if isList then
          match takeKind src .closeList lx with
          | (none, lx) => .error ((lx.offset, lx.offset), "Expected \x7d".toList)
          | (some _, lx) =>
            .ok ((mop.getD .all, (start, endIdx + 1)), vec, lx)
        else .ok ((mop.getD .all, (start, endIdx + 1)), vec, lx)

/-- One regex element of Filter::parse_regex; Regex::new is modelled as
always succeeding (no theorem exercises an invalid pattern). -/
def parseRegexElem (src : List Char) (lx : Lexer) :
    Except PErr (RegexM × Lexer) :=
  let pn := lexNext src lx
  let t := pn.1
  let lx := pn.2
  if t.kind = .str ∨ t.kind = .id then .ok (trimQuotes t.str, lx)
  else .error ((t.spanStart, t.spanEnd), "Expected regex".toList)

/-- One value element of Filter::parse_value; the source unwraps the
decimal parse of an Nb token (the unwrap is modelled as an error — the
lexer only emits Nb for strings its decimal recognizer accepts). -/
def parseValueElem (src : List Char) (lx : Lexer) :
    Except PErr (Value × Lexer) :=
  let pn := lexNext src lx
  let t := pn.1
  let lx := pn.2
  match t.kind with
  | .nb =>
    match parseDecimalM t.str with
    | some (m, sc) => .ok (.nb m sc, lx)
    | none => .error ((t.spanStart, t.spanEnd), "panic: unwrap".toList)
  | .str => .ok (.str t.spanStart t.spanEnd, lx)
  | .id => .ok (.str t.spanStart t.spanEnd, lx)
  | _ => .error ((t.spanStart, t.spanEnd), "Expected a value".toList)

/-- parser.rs Filter::parse_id (lines 328-343): a column reference —
integer > 0 or a name — followed by an optional range; pushed into the
idx arena, returning its index. -/
def fparse_id (src : List Char) (_fuel : Nat) (f : Filter) (lx : Lexer) :
    Except PErr (Nat × Filter × Lexer) :=
  let pn := lexNext src lx
  let t := pn.1
  let lx := pn.2
  let idRes : Except PErr FilterId :=
    match t.kind with
    | .nb =>
      match (parseU32 t.str).filter (fun n => n > 0) with
      | some n => .ok (.idx n)
      | none => .error ((t.spanStart, t.spanEnd), "Expected an integer > 0".toList)
    | .str => .ok (.name t.spanStart t.spanEnd)
    | .id => .ok (.name t.spanStart t.spanEnd)
    | _ => .error ((t.spanStart, t.spanEnd), "Expected an id".toList)
  match idRes with
  | .error e => .error e
  | .ok idv =>
    match fparse_range src lx with
    | .error e => .error e
    | .ok (range, lx) =>
      .ok (f.idx.length, { f with idx := f.idx ++ [(idv, range)] }, lx)

/-- parser.rs Filter::parse_action (lines 345-362). -/
def fparse_action (src : List Char) (fuel : Nat) (f : Filter) (lx : Lexer) :
    Except PErr (Nat × Filter × Lexer) :=
  match fparse_id src fuel f lx with
  | .error e => .error e
  | .ok (idI, f, lx) =>
    let pk := lexPeek src lx
    let t := pk.1
    let lx := pk.2
    let nodeRes : Except PErr (Node × Filter × Lexer) :=
      match t.kind with
      | .matches =>
        let lx := (lexNext src lx).2
        match flist src fuel (parseRegexElem src) f.regex lx with
        | .error e => .error e
        | .ok ((m, range), vec, lx) =>
          .ok (.matchN idI m range.1 range.2, { f with regex := vec }, lx)
      | .cmp op =>
        let lx := (lexNext src lx).2
        match flist src fuel (parseValueElem src) f.values lx with
        | .error e => .error e
        | .ok ((m, range), vec, lx) =>
          .ok (.cmp idI op m range.1 range.2, { f with values := vec }, lx)
      | _ => .ok (.exist idI, f, lx)
    match nodeRes with
    | .error e => .error e
    | .ok (node, f, lx) =>
      .ok (f.nodes.length, { f with nodes := f.nodes ++ [node] }, lx)

/-- parser.rs Filter::parse_expr (lines 364-400): not requires a
parenthesized expression; a parenthesized expression compiles to
Unary(true, child) — the same negating node as not; otherwise an action
optionally continued by a logical operator, where end of input wraps the
action in Unary(false, action). -/
def fparse_expr (src : List Char) :
    Nat → Filter → Lexer → Except PErr (Nat × Filter × Lexer)
  | 0, _, lx => .error ((lx.offset, lx.offset), "out of fuel".toList)
  | fuel + 1, f, lx =>
    match takeKind src .not lx with
    | (some _, lx) =>
      let pn := lexNext src lx
      let t := pn.1
      let lx := pn.2
      if t.kind = .openExpr then
        match fparse_expr src fuel f lx with
        | .error e => .error e
        | .ok (idx, f, lx) =>
          let pn2 := lexNext src lx
          let t2 := pn2.1
          let lx := pn2.2
          if t2.kind = .closeExpr then
            .ok (f.nodes.length,
              { f with nodes := f.nodes ++ [.unary true idx] }, lx)
          else .error ((t2.spanStart, t2.spanEnd), "Expected )".toList)
      else .error ((t.spanStart, t.spanEnd), "Expected (".toList)
    | (none, lx) =>
      match takeKind src .openExpr lx with
      | (some _, lx) =>
        match fparse_expr src fuel f lx with
        | .error e => .error e
        | .ok (idx, f, lx) =>
          let pn2 := lexNext src lx
          let t2 := pn2.1
          let lx := pn2.2
          if t2.kind = .closeExpr then
            .ok (f.nodes.length,
              { f with nodes := f.nodes ++ [.unary true idx] }, lx)
          else .error ((t2.spanStart, t2.spanEnd), "Expected )".toList)
      | (none, lx) =>
        match fparse_action src fuel f lx with
        | .error e => .error e
        | .ok (lhs, f, lx) =>
          let pk := lexPeek src lx
          let t := pk.1
          let lx := pk.2
          match t.kind with
          | .logi op =>
            let lx := (lexNext src lx).2
            match fparse_expr src fuel f lx with
            | .error e => .error e
            | .ok (rhs, f, lx) =>
              .ok (f.nodes.length,
                { f with nodes := f.nodes ++ [.binary lhs op rhs] }, lx)
          | .eof =>
            .ok (f.nodes.length,
              { f with nodes := f.nodes ++ [.unary false lhs] }, lx)
          | _ =>
            .error ((t.spanStart, t.spanEnd), "Expected && or ||".toList)

/-- parser.rs Filter::compile (lines 210-228): trim the source, parse
unless the input lexes straight to end of input, retain the source. The
fuel bound length + 2 covers every terminating parse (each recursion
step consumes at least one character). -/
def Filter.compile (source : List Char) : Except PErr Filter :=
  let source := trimBytes source
  let f0 : Filter := ⟨[], [], [], [], [], 0⟩
  let lx := Lexer.load
  let pk := lexPeek source lx
  if pk.1.kind ≠ .eof then
    match fparse_expr source (source.length + 2) f0 pk.2 with
    | .error e => .error e
    | .ok (start, f, _) => .ok { f with start := start, source := source }
  else .ok { f0 with source := source }

/- ------------------------------------------------------------------ -/
/- read.rs NestedString and filter/engine.rs (claims C1, C2, C6)       -/
/- ------------------------------------------------------------------ -/

/-- read.rs NestedString: one flat buffer plus the end offset of each
field (bounds[0] = 0). -/
structure NestedString where
  buff : List Char
  bounds : List Nat

/-- Elements [a, b) of the flat buffer (Rust &buff[a..b]). -/
def sliceRange (buff : List Char) (a b : Nat) : List Char :=
  (buff.drop a).take (b - a)

/-- read.rs NestedString::len. -/
def NestedString.len (ns : NestedString) : Nat := ns.bounds.length - 1

/-- read.rs NestedString::get_str_trim: the field bytes, trimmed. -/
def NestedString.get_str_trim (ns : NestedString) (a b : Nat) : ByteStr :=
  trimBytes (sliceRange ns.buff a b)

/-- read.rs NestedString::get: the idx-th field, trimmed, when present. -/
def NestedString.get (ns : NestedString) (idx : Nat) : Option ByteStr :=
  if idx < ns.len then
    some (ns.get_str_trim (ns.bounds.getD idx 0) (ns.bounds.getD (idx + 1) 0))
  else none

/-- read.rs NestedString::iter: all fields, trimmed. -/
def NestedString.fieldsList (ns : NestedString) : List ByteStr :=
  (ns.bounds.zip ns.bounds.tail).map (fun p => ns.get_str_trim p.1 p.2)

/-- engine.rs Engine: the compiled filter plus the header record. -/
structure Engine where
  filter : Filter
  headers : NestedString

/-- Column resolution of engine.rs Engine::by_id (lines 33-42): a 1-based
index becomes idx - 1; a name resolves to the position of the first
header equal to the quote-trimmed source slice. -/
def resolveCol (e : Engine) (idv : FilterId) : Option Nat :=
  match idv with
  | .idx n => some (n - 1)
  | .name a b =>
    let name := trimQuotes (sliceRange e.filter.source a b)
    e.headers.fieldsList.findIdx? (fun h => h = name)

/-- engine.rs Engine::by_id (lines 31-45): resolve the column reference,
fetch the field (empty when the column is missing), then slice the byte
range clamped to the field length. -/
def Engine.by_id (e : Engine) (record : NestedString) (i : Nat) : ByteStr :=
  let entry := e.filter.idx.getD i (.idx 1, (0, u32Max))
  let startR := entry.2.1
  let endR := entry.2.2
  let field := ((resolveCol e entry.1).bind
    (fun i0 => record.get i0)).getD []
  (field.drop (min startR field.length)).take
    (min endR field.length - min startR field.length)

/-- The raw, un-trimmed bytes of a resolved field, exactly as they stand
in the record buffer (defined for comparison with what the evaluator
actually tests). -/
def rawField (record : NestedString) (o : Option Nat) : ByteStr :=
  match o with
  | some i0 =>
    if i0 < record.len then
      sliceRange record.buff (record.bounds.getD i0 0)
        (record.bounds.getD (i0 + 1) 0)
    else []
  | none => []

/-- The clamped sub-range slicing of by_id, as a function of the fetched
field. -/
def applyRange (rs re : Nat) (field : ByteStr) : ByteStr :=
  (field.drop (min rs field.length)).take
    (min re field.length - min rs field.length)

/-- Byte-wise (here character-wise) lexicographic strict order. -/
def ltBytes : ByteStr → ByteStr → Bool
  | [], [] => false
  | [], _ :: _ => true
  | _ :: _, [] => false
  | a :: as_, b :: bs =>
    if a.toNat < b.toNat then true
    else if b.toNat < a.toNat then false
    else ltBytes as_ bs

/-- engine.rs Engine::cmp instantiated at byte strings. -/
def cmpBytes (a b : ByteStr) (op : CmpOp) : Bool :=
  match op with
  | .eq => a = b
  | .ne => a ≠ b
  | .gt => ltBytes b a
  | .lt => ltBytes a b
  | .ge => !(ltBytes a b)
  | .le => !(ltBytes b a)

/-- engine.rs Engine::cmp instantiated at decimals (mantissa × scale
compared as exact rationals, the order rust_decimal implements). -/
def cmpDec (a b : Int × Nat) (op : CmpOp) : Bool :=
  let x := a.1 * (10 : Int) ^ b.2
  let y := b.1 * (10 : Int) ^ a.2
  match op with
  | .eq => x = y
  | .ne => x ≠ y
  | .gt => y < x
  | .lt => x < y
  | .ge => y ≤ x
  | .le => x ≤ y

/-- engine.rs Engine::check_action (lines 58-77): against a numeric
value, parse the field as a decimal and compare numerically, else render
the value (in_place_str) and compare textually; against a string value,
compare to the quote-trimmed source range byte for byte. -/
def Engine.check_action (e : Engine) (s : ByteStr) (op : CmpOp)
    (v : Value) : Bool :=
  match v with
  | .nb m sc =>
    match parseDecimalM s with
    | some f => cmpDec f (m, sc) op
    | none => cmpBytes s (renderDecimalM m sc) op
  | .str a b => cmpBytes s (trimQuotes (sliceRange e.filter.source a b)) op

/-- engine.rs Engine::compare (lines 79-93). -/
def Engine.compare (e : Engine) (record : NestedString) (idI : Nat)
    (op : CmpOp) (m : MatchOp) (rs re : Nat) : Bool :=
  let s := e.by_id record idI
  let vals := (e.filter.values.drop rs).take (re - rs)
  match m with
  | .all => vals.all (fun v => e.check_action s op v)
  | .any => vals.any (fun v => e.check_action s op v)

/-- engine.rs Engine::per_match (lines 95-102). -/
def Engine.per_match (e : Engine) (record : NestedString) (idI : Nat)
    (m : MatchOp) (rs re : Nat) : Bool :=
  let s := e.by_id record idI
  let regs := (e.filter.regex.drop rs).take (re - rs)
  match m with
  | .all => regs.all (fun r => regexIsMatch r s)
  | .any => regs.any (fun r => regexIsMatch r s)

/-- engine.rs Engine::run_node (lines 104-125), with fuel standing in for
the call stack: compiled filters only ever reference earlier nodes, so
nodes.length + 1 fuel always suffices; an out-of-bounds node (impossible
for compiled filters) reads as Exist 0. -/
def Engine.run_node (e : Engine) (record : NestedString) :
    Nat → Nat → Bool
  | 0, _ => false
  | fuel + 1, i =>
    match e.filter.nodes.getD i (.exist 0) with
    | .exist i0 => !(e.by_id record i0).isEmpty
    | .cmp id op m rs re => e.compare record id op m rs re
    | .matchN id m rs re => e.per_match record id m rs re
    | .unary inverse id =>
      let result := e.run_node record fuel id
      if inverse then !result else result
    | .binary lhs op rhs =>
      let l := e.run_node record fuel lhs
      let r := e.run_node record fuel rhs
      match op with
      | .and => l && r
      | .or => l || r

/-- engine.rs Engine::check (lines 127-133): the empty node list accepts
every record. -/
def Engine.check (e : Engine) (record : NestedString) : Bool :=
  if e.filter.nodes.isEmpty then true
  else e.run_node record (e.filter.nodes.length + 1) e.filter.start

/- ------------------------------------------------------------------ -/
/- index.rs: Indexer::bg_index (claim C6)                              -/
/- ------------------------------------------------------------------ -/

/-- index.rs Indexer::bg_index (lines 55-90) as a pure loop over the
successive (record, bytes consumed) results of the reader: stop at the
first zero-byte read, otherwise append (ordinal, offset) whenever the
engine accepts the record, then advance the offset and the ordinal.
(The throttled flush only batches lock traffic; the final index content
is the same.) -/
def bgIndexLoop (e : Engine) :
    List (NestedString × Nat) → Nat → Nat → List (Nat × Nat)
  | [], _, _ => []
  | (r, amount) :: rest, count, pos =>
    if amount = 0 then []
    else
      (if e.check r then [(count, pos)] else []) ++
        bgIndexLoop e rest (count + 1) (pos + amount)

/-- The full background index of a file: ordinals start at 0, offsets at
the position after the header. -/
def bgIndex (filter : Filter) (headers : NestedString)
    (reads : List (NestedString × Nat)) (startPos : Nat) : List (Nat × Nat) :=
  bgIndexLoop ⟨filter, headers⟩ reads 0 startPos

/-- Index contents the spec promises for the empty filter: every record,
in source order, ordinal i and its byte offset. -/
def indexSpec : List (NestedString × Nat) → Nat → Nat → List (Nat × Nat)
  | [], _, _ => []
  | (_, a) :: rest, i, pos => (i, pos) :: indexSpec rest (i + 1) (pos + a)

/- ------------------------------------------------------------------ -/
/- filter/parser.rs: the Highlighter (claim C7)                        -/
/- ------------------------------------------------------------------ -/

/-- parser.rs Style. -/
inductive Style where
  | none | id | nb | str | regex | action | logi
deriving DecidableEq, Repr

/-- Highlighter state while parsing: lexer plus the break-point list in
REVERSE push order (head = most recently pushed entry); Highlighter::new
starts from [(0, None)]. -/
structure HLState where
  lx : Lexer
  sr : List (Nat × Style)

/-- Highlighter::add (parser.rs lines 83-91): overwrite the style of the
last break-point when it already sits at the span start, else push
(start, style); then always push (end, None). On the reversed list both
cases produce (end, None) :: (start, style) :: rest. -/
def hlAdd (sr : List (Nat × Style)) (rs re : Nat) (st : Style) :
    List (Nat × Style) :=
  match sr with
  | last :: rest =>
    if last.1 = rs then (re, .none) :: (rs, st) :: rest
    else (re, .none) :: (rs, st) :: last :: rest
  | [] => [(re, .none), (rs, st)]

/-- An `if let Some(token) = lexer.take_kind(k) { self.add(span, st) }`
step of the highlighter. -/
def hlTake (src : List Char) (k : TokenKind) (st : Style) (s : HLState) :
    HLState :=
  match takeKind src k s.lx with
  | (none, lx) => ⟨lx, s.sr⟩
  | (some t, lx) => ⟨lx, hlAdd s.sr t.spanStart t.spanEnd st⟩

/-- Highlighter::parse_range (parser.rs lines 93-109). -/
def hlParseRange (src : List Char) (s : HLState) : HLState :=
  match takeKind src .openRange s.lx with
  | (none, lx) => ⟨lx, s.sr⟩
  | (some t, lx) =>
    let s : HLState := ⟨lx, hlAdd s.sr t.spanStart t.spanEnd .id⟩
    let s := hlTake src .nb .id s
    let s := hlTake src .sepRange .id s
    let s := hlTake src .nb .id s
    hlTake src .closeRange .id s

/-- The value-element closure of Highlighter::parse_value
(parser.rs lines 139-148). -/
def hlValueElem (src : List Char) (s : HLState) : HLState :=
  let pn := lexNext src s.lx
  let t := pn.1
  match t.kind with
  | .nb => ⟨pn.2, hlAdd s.sr t.spanStart t.spanEnd .nb⟩
  | .str => ⟨pn.2, hlAdd s.sr t.spanStart t.spanEnd .str⟩
  | .id => ⟨pn.2, hlAdd s.sr t.spanStart t.spanEnd .str⟩
  | _ => ⟨pn.2, s.sr⟩

/-- The while loop of Highlighter::list. -/
def hlListLoop (src : List Char) :
    Nat → (HLState → HLState) → HLState → HLState
  | 0, _, s => s
  | fuel + 1, parse, s =>
    match takeKind src .sepList s.lx with
    | (none, lx) => ⟨lx, s.sr⟩
    | (some _, lx) => hlListLoop src fuel parse (parse ⟨lx, s.sr⟩)

/-- Highlighter::list (parser.rs lines 111-129): discard an optional
all/any, discard an optional open brace, parse elements separated by
commas, then (faithfully to the source) try to take ANOTHER open brace
where a close brace was presumably meant. -/
def hlList (src : List Char) (fuel : Nat) (parse : HLState → HLState)
    (s : HLState) : HLState :=
  let pk := lexPeek src s.lx
  let lx :=
    match pk.1.kind with
    | .matchOp _ => (lexNext src pk.2).2
    | _ => pk.2
  let lx := (takeKind src .openList lx).2
  let s := parse ⟨lx, s.sr⟩
  let s := hlListLoop src fuel parse s
  ⟨(takeKind src .openList s.lx).2, s.sr⟩

/-- Highlighter::parse_action (parser.rs lines 150-171). -/
def hlParseAction (src : List Char) (fuel : Nat) (s : HLState) : HLState :=
  let pn := lexNext src s.lx
  let t := pn.1
  let s : HLState :=
    if t.kind = .nb ∨ t.kind = .str ∨ t.kind = .id then
      ⟨pn.2, hlAdd s.sr t.spanStart t.spanEnd .id⟩
    else ⟨pn.2, s.sr⟩
  let s := hlParseRange src s
  let pk := lexPeek src s.lx
  let t2 := pk.1
  match t2.kind with
  | .matches =>
    let s : HLState := ⟨pk.2, hlAdd s.sr t2.spanStart t2.spanEnd .action⟩
    let s : HLState := ⟨(lexNext src s.lx).2, s.sr⟩
    hlList src fuel (hlTake src .str .regex) s
  | .cmp _ =>
    let s : HLState := ⟨pk.2, hlAdd s.sr t2.spanStart t2.spanEnd .action⟩
    let s : HLState := ⟨(lexNext src s.lx).2, s.sr⟩
    hlList src fuel (hlValueElem src) s
  | _ => ⟨pk.2, s.sr⟩

/-- Highlighter::parse_expr (parser.rs lines 173-193), fuelled: not
discards the next token and an optional parenthesis around a recursive
expression; a parenthesized expression recurses; otherwise an action,
then a logical operator continues, end of input adds its empty span and
stops, and any other token is silently skipped (fault tolerance). -/
def hlParseExpr (src : List Char) : Nat → HLState → HLState
  | 0, s => s
  | fuel + 1, s =>
    match takeKind src .not s.lx with
    | (some _, lx) =>
      let lx := (lexNext src lx).2
      let lx := (takeKind src .openExpr lx).2
      let s1 := hlParseExpr src fuel ⟨lx, s.sr⟩
      ⟨(takeKind src .closeExpr s1.lx).2, s1.sr⟩
    | (none, lx) =>
      match takeKind src .openExpr lx with
      | (some _, lx) =>
        let s1 := hlParseExpr src fuel ⟨lx, s.sr⟩
        ⟨(takeKind src .closeExpr s1.lx).2, s1.sr⟩
      | (none, lx) =>
        let s1 := hlParseAction src fuel ⟨lx, s.sr⟩
        let pn := lexNext src s1.lx
        let t := pn.1
        match t.kind with
        | .logi _ =>
          hlParseExpr src fuel
            ⟨pn.2, hlAdd s1.sr t.spanStart t.spanEnd .logi⟩
        | .eof => ⟨pn.2, hlAdd s1.sr t.spanStart t.spanEnd .none⟩
        | _ => hlParseExpr src fuel ⟨pn.2, s1.sr⟩

/-- Highlighter::new (parser.rs lines 60-67): start from [(0, None)] and
run parse_expr; the stored list is the reverse of the working list. The
fuel length + 2 exceeds the recursion depth of every parse (each level
consumes at least one character). -/
def Highlighter.new (src : List Char) : List (Nat × Style) :=
  (hlParseExpr src (src.length + 2)
    ⟨Lexer.load, [(0, Style.none)]⟩).sr.reverse

/-- The "Move left" loop of Highlighter::style (lines 70-72): decrement
the cursor while the position is left of the current break-point; none
models the out-of-bounds read or the cursor underflow. -/
def moveLeft (styles : List (Nat × Style)) (pos : Nat) : Nat → Option Nat
  | 0 =>
    match styles[0]? with
    | Option.none => Option.none
    | some p => if pos < p.1 then Option.none else some 0
  | idx' + 1 =>
    match styles[idx' + 1]? with
    | Option.none => Option.none
    | some p =>
      if pos < p.1 then moveLeft styles pos idx' else some (idx' + 1)

/-- The "Move right" loop of Highlighter::style (lines 75-77): advance
the cursor while idx < len and the next break-point is not past pos;
none models the out-of-bounds read styles[idx + 1] (or fuel exhaustion,
which the totality theorem shows unreachable). -/
def moveRight (styles : List (Nat × Style)) (pos : Nat) :
    Nat → Nat → Option Nat
  | 0, _ => Option.none
  | fuel + 1, idx =>
    if idx < styles.length then
      match styles[idx + 1]? with
      | Option.none => Option.none
      | some q =>
        if q.1 ≤ pos then moveRight styles pos fuel (idx + 1) else some idx
    else some idx

/-- Highlighter::style (parser.rs lines 69-81): move the cursor, then
read the style at the cursor; none models every indexing panic. -/
def styleFn (styles : List (Nat × Style)) (idx pos : Nat) :
    Option (Style × Nat) :=
  match moveLeft styles pos idx with
  | Option.none => Option.none
  | some i1 =>
    match moveRight styles pos (styles.length + 1) i1 with
    | Option.none => Option.none
    | some i2 =>
      match styles[i2]? with
      | Option.none => Option.none
      | some p => some (p.2, i2)

/-- The logical input position of a lexer state: the start of the peeked
token when one is cached (the offset already stands past it), else the
offset. -/
def lpOf (lx : Lexer) : Nat :=
  match lx.peeked with
  | some t => t.spanStart
  | none => lx.offset

/-- Well-formedness of a token of a source of length len: the span is
ordered and within the source, the end-of-input token sits exactly at
len, and every other token is non-empty. -/
def TokOk (len : Nat) (t : Token) : Prop :=
  t.spanStart ≤ t.spanEnd ∧ t.spanEnd ≤ len ∧
    (t.kind = .eof → t.spanStart = len) ∧
    (t.kind ≠ .eof → t.spanStart < t.spanEnd)

/-- Well-formedness of a lexer state over src. -/
def LexOk (src : List Char) (lx : Lexer) : Prop :=
  lx.offset ≤ src.length ∧
    ∀ t, lx.peeked = some t → TokOk src.length t ∧ t.spanEnd = lx.offset

/-- Position of the most recently pushed break-point. -/
def srLast (sr : List (Nat × Style)) : Nat := (sr.headD (0, Style.none)).1

/-- Well-formedness of a highlighter state: the lexer is well formed, the
reversed break-point list is non-empty with non-increasing positions
anchored at 0, and its newest position is at or before the logical input
position. -/
def StOk (src : List Char) (s : HLState) : Prop :=
  LexOk src s.lx ∧ s.sr ≠ [] ∧
    List.Chain' (fun a b => b.1 ≤ a.1) s.sr ∧
    ((s.sr.getLast?).getD (0, Style.none)).1 = 0 ∧
    srLast s.sr ≤ lpOf s.lx

end Csvex

/- ------------------------------------------------------------------ -/
/- Theorems                                                            -/
/- ------------------------------------------------------------------ -/

namespace Csvex

/-- C10: the source's quantity renders 1234 as "1234_" — the underscore is
appended at the right end, not inserted between the thousands groups. -/
theorem quantity_code_bug_at_1234 :
    quantity 1234 = ['1', '2', '3', '4', '_'] ∧
    quantitySpec 1234 = ['1', '_', '2', '3', '4'] := by
  constructor <;> rfl

/-- C3: on a first line with no candidate occurrences at all (here "ab"),
sniff_delimiter returns the underscore, the last candidate, not the comma
that the in-code comment and the spec promise. -/
theorem sniff_delimiter_code_bug_all_zero :
    sniff_delimiter ['a', 'b'] = '_' ∧ ('_' : Char) ≠ ',' := by
  constructor
  · rfl
  · decide

section HistogramLemmas

theorem atD_set_self {α : Type} (l : List α) (i : Nat) (v d : α)
    (h : i < l.length) : atD (l.set i v) i d = v := by
  simp [atD, List.getElem?_set_eq_of_lt v h]

theorem atD_set_ne {α : Type} (l : List α) (i x : Nat) (v d : α)
    (h : i ≠ x) : atD (l.set i v) x d = atD l x d := by
  simp [atD, List.getElem?_set_ne h]

theorem atD_append_left {α : Type} (l l2 : List α) (i : Nat) (d : α)
    (h : i < l.length) : atD (l ++ l2) i d = atD l i d := by
  simp [atD, List.getElem?_append, h]

theorem atD_concat_self {α : Type} (l : List α) (a d : α) :
    atD (l ++ [a]) l.length d = a := by
  simp [atD, List.getElem?_concat_length]

theorem atD_take {α : Type} (l : List α) (n i : Nat) (d : α) (h : i < n) :
    atD (l.take n) i d = atD l i d := by
  simp [atD, List.getElem?_take, h]

theorem atD_cons_succ {α : Type} (a : α) (l : List α) (i : Nat) (d : α) :
    atD (a :: l) (i + 1) d = atD l i d := by
  simp [atD]

theorem atD_cons_zero {α : Type} (a : α) (l : List α) (d : α) :
    atD (a :: l) 0 d = a := by
  simp [atD]

theorem rpos_some_lt (p : Nat × Nat → Bool) (l : List (Nat × Nat))
    (i : Nat) (h : rpos p l = some i) : i < l.length := by
  induction l generalizing i with
  | nil => simp [rpos] at h
  | cons a l ih =>
    simp only [rpos] at h
    cases hr : rpos p l with
    | some k =>
      rw [hr] at h
      injection h with h
      subst h
      exact Nat.succ_lt_succ (ih k hr)
    | none =>
      rw [hr] at h
      by_cases hp : p a
      · simp [hp] at h
        subst h
        simp
      · simp [hp] at h

theorem rpos_none (p : Nat × Nat → Bool) (l : List (Nat × Nat))
    (h : rpos p l = none) : ∀ m d, m < l.length → p (atD l m d) = false := by
  induction l with
  | nil => intro m d hm; simp at hm
  | cons a l ih =>
    simp only [rpos] at h
    cases hr : rpos p l with
    | some k => rw [hr] at h; simp at h
    | none =>
      rw [hr] at h
      by_cases hp : p a
      · simp [hp] at h
      · intro m d hm
        cases m with
        | zero => rw [atD_cons_zero]; exact Bool.eq_false_iff.mpr hp
        | succ m =>
          rw [atD_cons_succ]
          exact ih hr m d (by simpa using hm)

theorem rpos_some_p (p : Nat × Nat → Bool) (l : List (Nat × Nat))
    (i : Nat) (h : rpos p l = some i) : ∀ d, p (atD l i d) = true := by
  induction l generalizing i with
  | nil => simp [rpos] at h
  | cons a l ih =>
    simp only [rpos] at h
    cases hr : rpos p l with
    | some k =>
      rw [hr] at h
      injection h with h
      subst h
      intro d
      rw [atD_cons_succ]
      exact ih k hr d
    | none =>
      rw [hr] at h
      by_cases hp : p a
      · simp [hp] at h
        subst h
        intro d
        rw [atD_cons_zero]
        exact hp
      · simp [hp] at h

theorem rpos_some_max (p : Nat × Nat → Bool) (l : List (Nat × Nat))
    (i : Nat) (h : rpos p l = some i) :
    ∀ m d, i < m → m < l.length → p (atD l m d) = false := by
  induction l generalizing i with
  | nil => simp [rpos] at h
  | cons a l ih =>
    simp only [rpos] at h
    cases hr : rpos p l with
    | some k =>
      rw [hr] at h
      injection h with h
      subst h
      intro m d him hm
      cases m with
      | zero => omega
      | succ m =>
        rw [atD_cons_succ]
        exact ih k hr m d (by omega) (by simpa using hm)
    | none =>
      rw [hr] at h
      by_cases hp : p a
      · simp [hp] at h
        subst h
        intro m d him hm
        cases m with
        | zero => omega
        | succ m =>
          rw [atD_cons_succ]
          exact rpos_none p l hr m d (by simpa using hm)
      · simp [hp] at h

theorem find?_index {α : Type} (q : α → Bool) (l : List α) (x : α)
    (h : l.find? q = some x) : ∃ j, j < l.length ∧ l[j]? = some x := by
  have hmem : x ∈ l := List.mem_of_find?_eq_some h
  obtain ⟨n, hn, hx⟩ := List.getElem_of_mem hmem
  exact ⟨n, hn, by rw [List.getElem?_eq_getElem hn, hx]⟩

theorem setSnd_length (l : List (ByteStr × Nat)) (i v : Nat) :
    (setSnd l i v).length = l.length := by
  simp [setSnd]

theorem vAt_setSnd_self (l : List (ByteStr × Nat)) (i v : Nat)
    (h : i < l.length) : vAt (setSnd l i v) i = ((vAt l i).1, v) := by
  simp only [setSnd, vAt]
  exact atD_set_self l i _ _ h

theorem vAt_setSnd_ne (l : List (ByteStr × Nat)) (i v x : Nat)
    (h : i ≠ x) : vAt (setSnd l i v) x = vAt l x := by
  simp only [setSnd, vAt]
  exact atD_set_ne l i x _ _ h

theorem swapStep_eq (values : List (ByteStr × Nat))
    (counts1 : List (Nat × Nat)) (cidx s : Nat) :
    swapStep values counts1 cidx s =
      ⟨setSnd (setSnd values (cAt counts1 cidx).1 s)
          (cAt ((counts1.set cidx (cAt counts1 s)).set s
            (cAt counts1 cidx)) cidx).1 cidx,
        (counts1.set cidx (cAt counts1 s)).set s (cAt counts1 cidx)⟩ := rfl

/-- Invariant preservation through the swap of Histogram::register, under
the region facts that hold at the moment the swap runs: counts1 is the
count vector after the in-place increment at cidx, s is the computed
swap index, everything left of s is ≥ the new count, everything from s
up to (but excluding) cidx holds exactly count - 1, everything right of
cidx holds at most count - 1. -/
theorem inv_swapStep (values : List (ByteStr × Nat))
    (counts1 : List (Nat × Nat)) (cidx s count : Nat)
    (hlen : counts1.length = values.length)
    (hc : cidx < counts1.length)
    (hslt : s < cidx)
    (hcount : (cAt counts1 cidx).2 = count)
    (hres : ∀ x, x < values.length → (vAt values x).2 < counts1.length ∧
      (cAt counts1 (vAt values x).2).1 = x)
    (hcores : ∀ i, i < counts1.length → (cAt counts1 i).1 < values.length ∧
      (vAt values (cAt counts1 i).1).2 = i)
    (hpos : ∀ i, i < counts1.length → 1 ≤ (cAt counts1 i).2)
    (hso : ∀ i k, i ≤ k → k < counts1.length → i ≠ cidx → k ≠ cidx →
      (cAt counts1 k).2 ≤ (cAt counts1 i).2)
    (hR1 : ∀ m, m < s → count ≤ (cAt counts1 m).2)
    (hR2 : ∀ m, s ≤ m → m < cidx → (cAt counts1 m).2 + 1 = count)
    (hR3 : ∀ m, cidx < m → m < counts1.length → (cAt counts1 m).2 + 1 ≤ count) :
    Inv (swapStep values counts1 cidx s) := by
  have hs : s < counts1.length := Nat.lt_trans hslt hc
  have hsne : s ≠ cidx := Nat.ne_of_lt hslt
  rcases hq : cAt counts1 cidx with ⟨j, c2⟩
  have hc2 : c2 = count := by rw [← hcount, hq]
  rw [hc2] at hq
  rcases hbq : cAt counts1 s with ⟨j2, bc⟩
  have hbc : bc + 1 = count := by
    have h' := hR2 s le_rfl hslt
    rw [hbq] at h'
    exact h'
  have hjv1 : j < values.length := by
    have h' := (hcores cidx hc).1
    rw [hq] at h'
    exact h'
  have hjv2 : (vAt values j).2 = cidx := by
    have h' := (hcores cidx hc).2
    rw [hq] at h'
    exact h'
  have hj2v1 : j2 < values.length := by
    have h' := (hcores s hs).1
    rw [hbq] at h'
    exact h'
  have hj2v2 : (vAt values j2).2 = s := by
    have h' := (hcores s hs).2
    rw [hbq] at h'
    exact h'
  have hjne : j ≠ j2 := by
    intro he
    apply hsne
    rw [← hj2v2, ← he, hjv2]
  -- the result, with the lets resolved
  rw [swapStep_eq, hq, hbq]
  have hC : ∀ x, cAt ((counts1.set cidx (j2, bc)).set s (j, count)) x =
      if x = s then (j, count)
      else if x = cidx then (j2, bc) else cAt counts1 x := by
    intro x
    by_cases hxs : x = s
    · subst hxs
      rw [if_pos rfl]
      exact atD_set_self _ _ _ _ (by simpa using hs)
    · rw [if_neg hxs]
      have h1 : cAt ((counts1.set cidx (j2, bc)).set s (j, count)) x =
          cAt (counts1.set cidx (j2, bc)) x :=
        atD_set_ne _ _ _ _ _ (fun he => hxs he.symm)
      by_cases hxc : x = cidx
      · subst hxc
        rw [if_pos rfl, h1]
        exact atD_set_self _ _ _ _ hc
      · rw [if_neg hxc, h1]
        exact atD_set_ne _ _ _ _ _ (fun he => hxc he.symm)
  have hCc : (cAt ((counts1.set cidx (j2, bc)).set s (j, count)) cidx).1 = j2 := by
    rw [hC cidx, if_neg (fun he => hsne he.symm), if_pos rfl]
  rw [hCc]
  have hV : ∀ x, vAt (setSnd (setSnd values j s) j2 cidx) x =
      if x = j2 then ((vAt values j2).1, cidx)
      else if x = j then ((vAt values j).1, s) else vAt values x := by
    intro x
    by_cases hxj2 : x = j2
    · rw [if_pos hxj2, hxj2]
      have h1 : vAt (setSnd values j s) j2 = vAt values j2 :=
        vAt_setSnd_ne _ _ _ _ hjne
      rw [vAt_setSnd_self _ _ _ (by rw [setSnd_length]; exact hj2v1), h1]
    · rw [if_neg hxj2]
      have h1 : vAt (setSnd (setSnd values j s) j2 cidx) x =
          vAt (setSnd values j s) x :=
        vAt_setSnd_ne _ _ _ _ (fun he => hxj2 he.symm)
      by_cases hxj : x = j
      · rw [if_pos hxj, h1, hxj]
        exact vAt_setSnd_self _ _ _ hjv1
      · rw [if_neg hxj, h1]
        exact vAt_setSnd_ne _ _ _ _ (fun he => hxj he.symm)
  have hlen2 : ((counts1.set cidx (j2, bc)).set s (j, count)).length =
      counts1.length := by simp
  have hvlen2 : (setSnd (setSnd values j s) j2 cidx).length =
      values.length := by rw [setSnd_length, setSnd_length]
  set C2 := (counts1.set cidx (j2, bc)).set s (j, count) with hC2def
  set V2 := setSnd (setSnd values j s) j2 cidx with hV2def
  refine ⟨?_, ?_, ?_, ?_, ?_⟩
  · -- lengths
    show C2.length = V2.length
    rw [hlen2, hvlen2]
    exact hlen
  · -- Resolves
    intro x hx
    have hx' : x < values.length := hvlen2 ▸ (show x < V2.length from hx)
    show (vAt V2 x).2 < C2.length ∧ (cAt C2 (vAt V2 x).2).1 = x
    rw [hV x]
    by_cases hxj2 : x = j2
    · rw [if_pos hxj2]
      constructor
      · show cidx < C2.length
        rw [hlen2]; exact hc
      · show (cAt C2 cidx).1 = x
        rw [hCc]
        exact hxj2.symm
    · rw [if_neg hxj2]
      by_cases hxj : x = j
      · rw [if_pos hxj]
        constructor
        · show s < C2.length
          rw [hlen2]; exact hs
        · show (cAt C2 s).1 = x
          rw [hC s, if_pos rfl]
          exact hxj.symm
      · rw [if_neg hxj]
        obtain ⟨h1, h2⟩ := hres x hx'
        have his : (vAt values x).2 ≠ s := by
          intro he
          apply hxj2
          rw [he, hbq] at h2
          exact h2.symm
        have hic : (vAt values x).2 ≠ cidx := by
          intro he
          apply hxj
          rw [he, hq] at h2
          exact h2.symm
        constructor
        · show (vAt values x).2 < C2.length
          rw [hlen2]; exact h1
        · show (cAt C2 (vAt values x).2).1 = x
          rw [hC _, if_neg his, if_neg hic]
          exact h2
  · -- CoResolves
    intro i0 hi0
    have hi' : i0 < counts1.length := hlen2 ▸ (show i0 < C2.length from hi0)
    show (cAt C2 i0).1 < V2.length ∧ (vAt V2 (cAt C2 i0).1).2 = i0
    rw [hC i0]
    by_cases his : i0 = s
    · rw [if_pos his]
      constructor
      · show j < V2.length
        rw [hvlen2]; exact hjv1
      · show (vAt V2 j).2 = i0
        rw [hV j, if_neg hjne, if_pos rfl]
        exact his.symm
    · rw [if_neg his]
      by_cases hic : i0 = cidx
      · rw [if_pos hic]
        constructor
        · show j2 < V2.length
          rw [hvlen2]; exact hj2v1
        · show (vAt V2 j2).2 = i0
          rw [hV j2, if_pos rfl]
          exact hic.symm
      · rw [if_neg hic]
        obtain ⟨h1, h2⟩ := hcores i0 hi'
        have hkj : (cAt counts1 i0).1 ≠ j := by
          intro he
          apply hic
          rw [he, hjv2] at h2
          exact h2.symm
        have hkj2 : (cAt counts1 i0).1 ≠ j2 := by
          intro he
          apply his
          rw [he, hj2v2] at h2
          exact h2.symm
        constructor
        · show (cAt counts1 i0).1 < V2.length
          rw [hvlen2]; exact h1
        · show (vAt V2 (cAt counts1 i0).1).2 = i0
          rw [hV _, if_neg hkj2, if_neg hkj]
          exact h2
  · -- PositiveC
    intro i0 hi0
    have hi' : i0 < counts1.length := hlen2 ▸ (show i0 < C2.length from hi0)
    show 1 ≤ (cAt C2 i0).2
    rw [hC i0]
    by_cases his : i0 = s
    · rw [if_pos his]
      show 1 ≤ count
      have hp := hpos cidx hc
      rw [hq] at hp
      exact hp
    · rw [if_neg his]
      by_cases hic : i0 = cidx
      · rw [if_pos hic]
        show 1 ≤ bc
        have hp := hpos s hs
        rw [hbq] at hp
        exact hp
      · rw [if_neg hic]
        exact hpos i0 hi'
  · -- SortedD
    intro i0 k0 hik hk0
    have hk' : k0 < counts1.length := hlen2 ▸ (show k0 < C2.length from hk0)
    show (cAt C2 k0).2 ≤ (cAt C2 i0).2
    rw [hC i0, hC k0]
    by_cases hks : k0 = s
    · rw [if_pos hks]
      by_cases his : i0 = s
      · rw [if_pos his]
      · rw [if_neg his, if_neg (show i0 ≠ cidx by omega)]
        show count ≤ (cAt counts1 i0).2
        exact hR1 i0 (by omega)
    · rw [if_neg hks]
      by_cases hkc : k0 = cidx
      · rw [if_pos hkc]
        by_cases his : i0 = s
        · rw [if_pos his]
          show bc ≤ count
          omega
        · rw [if_neg his]
          by_cases hic : i0 = cidx
          · rw [if_pos hic]
          · rw [if_neg hic]
            show bc ≤ (cAt counts1 i0).2
            rcases Nat.lt_or_ge i0 s with h | h
            · have := hR1 i0 h
              omega
            · have := hR2 i0 h (by omega)
              omega
      · rw [if_neg hkc]
        by_cases his : i0 = s
        · rw [if_pos his]
          show (cAt counts1 k0).2 ≤ count
          rcases Nat.lt_or_ge k0 cidx with h | h
          · have := hR2 k0 (by omega) h
            omega
          · have := hR3 k0 (by omega) hk'
            omega
        · rw [if_neg his]
          by_cases hic : i0 = cidx
          · rw [if_pos hic]
            show (cAt counts1 k0).2 ≤ bc
            have := hR3 k0 (by omega) hk'
            omega
          · rw [if_neg hic]
            show (cAt counts1 k0).2 ≤ (cAt counts1 i0).2
            rcases Nat.lt_or_ge i0 s with hi1 | hi1
            · rcases Nat.lt_or_ge k0 s with hk1 | hk1
              · exact hso i0 k0 hik hk' (by omega) (by omega)
              · have h1 := hR1 i0 hi1
                rcases Nat.lt_or_ge k0 cidx with hk2 | hk2
                · have := hR2 k0 (by omega) hk2
                  omega
                · have := hR3 k0 (by omega) hk'
                  omega
            · rcases Nat.lt_or_ge i0 cidx with hi2 | hi2
              · have h1 := hR2 i0 (by omega) hi2
                rcases Nat.lt_or_ge k0 cidx with hk2 | hk2
                · have := hR2 k0 (by omega) hk2
                  omega
                · have := hR3 k0 (by omega) hk'
                  omega
              · exact hso i0 k0 hik hk' (by omega) (by omega)

/-- Invariant preservation through the already-seen branch of register. -/
theorem inv_registerBump (h : Histogram) (cidx : Nat) (hI : Inv h)
    (hc : cidx < h.counts.length) : Inv (registerBump h cidx) := by
  obtain ⟨hlen, hres, hcores, hpos, hsor⟩ := hI
  rcases hq : cAt h.counts cidx with ⟨j, c0⟩
  have hjlt : j < h.values.length := by
    have h' := (hcores cidx hc).1
    rw [hq] at h'
    exact h'
  have hjv : (vAt h.values j).2 = cidx := by
    have h' := (hcores cidx hc).2
    rw [hq] at h'
    exact h'
  have hC1 : ∀ x, cAt (h.counts.set cidx (j, c0 + 1)) x =
      if x = cidx then (j, c0 + 1) else cAt h.counts x := by
    intro x
    by_cases hxc : x = cidx
    · rw [if_pos hxc, hxc]
      exact atD_set_self _ _ _ _ hc
    · rw [if_neg hxc]
      exact atD_set_ne _ _ _ _ _ (fun he => hxc he.symm)
  have hlen1 : (h.counts.set cidx (j, c0 + 1)).length = h.counts.length := by
    simp
  -- the intermediate state after the in-place increment
  have hres1 : ∀ x, x < h.values.length →
      (vAt h.values x).2 < (h.counts.set cidx (j, c0 + 1)).length ∧
        (cAt (h.counts.set cidx (j, c0 + 1)) (vAt h.values x).2).1 = x := by
    intro x hx
    obtain ⟨h1, h2⟩ := hres x hx
    refine ⟨by rw [hlen1]; exact h1, ?_⟩
    rw [hC1]
    by_cases he : (vAt h.values x).2 = cidx
    · rw [if_pos he]
      rw [he, hq] at h2
      exact h2
    · rw [if_neg he]
      exact h2
  have hcores1 : ∀ i, i < (h.counts.set cidx (j, c0 + 1)).length →
      (cAt (h.counts.set cidx (j, c0 + 1)) i).1 < h.values.length ∧
        (vAt h.values (cAt (h.counts.set cidx (j, c0 + 1)) i).1).2 = i := by
    intro i0 hi0
    rw [hlen1] at hi0
    rw [hC1 i0]
    by_cases he : i0 = cidx
    · rw [if_pos he]
      exact ⟨hjlt, by rw [show ((j, c0 + 1) : Nat × Nat).1 = j from rfl, hjv, he]⟩
    · rw [if_neg he]
      exact hcores i0 hi0
  have hpos1 : ∀ i, i < (h.counts.set cidx (j, c0 + 1)).length →
      1 ≤ (cAt (h.counts.set cidx (j, c0 + 1)) i).2 := by
    intro i0 hi0
    rw [hlen1] at hi0
    rw [hC1 i0]
    by_cases he : i0 = cidx
    · rw [if_pos he]
      show 1 ≤ c0 + 1
      omega
    · rw [if_neg he]
      exact hpos i0 hi0
  have hso1 : ∀ i k, i ≤ k → k < (h.counts.set cidx (j, c0 + 1)).length →
      i ≠ cidx → k ≠ cidx →
      (cAt (h.counts.set cidx (j, c0 + 1)) k).2 ≤
        (cAt (h.counts.set cidx (j, c0 + 1)) i).2 := by
    intro i0 k0 hik hk0 hi hk
    rw [hlen1] at hk0
    rw [hC1 i0, hC1 k0, if_neg hi, if_neg hk]
    exact hsor i0 k0 hik hk0
  have hcnt1 : (cAt (h.counts.set cidx (j, c0 + 1)) cidx).2 = c0 + 1 := by
    rw [hC1 cidx, if_pos rfl]
  simp only [registerBump, hq]
  by_cases hcond : cidx ≠ 0 ∧
      (cAt (h.counts.set cidx (j, c0 + 1)) (cidx - 1)).2 < c0 + 1
  · rw [if_pos hcond]
    obtain ⟨hc0, hlt⟩ := hcond
    rw [hC1 (cidx - 1), if_neg (show cidx - 1 ≠ cidx by omega)] at hlt
    have hcc : (cAt h.counts cidx).2 = c0 := by rw [hq]
    have hprev : (cAt h.counts (cidx - 1)).2 = c0 := by
      have h' := hsor (cidx - 1) cidx (by omega) hc
      omega
    have hpreAt : ∀ m, m < cidx →
        cAt ((h.counts.set cidx (j, c0 + 1)).take cidx) m = cAt h.counts m := by
      intro m hm
      rw [show cAt ((h.counts.set cidx (j, c0 + 1)).take cidx) m =
          cAt (h.counts.set cidx (j, c0 + 1)) m from atD_take _ _ _ _ hm]
      exact atD_set_ne _ _ _ _ _ (by omega)
    have hprelen : ((h.counts.set cidx (j, c0 + 1)).take cidx).length = cidx := by
      simp
      omega
    -- common middle-region fact: everything strictly left of cidx that does
    -- not reach c0 + 1 holds exactly c0
    have hmid : ∀ m, m < cidx → (cAt h.counts m).2 ≤ c0 →
        (cAt h.counts m).2 + 1 = c0 + 1 := by
      intro m hm hle
      have h' := hsor m (cidx - 1) (by omega) (by omega)
      omega
    rcases hrp : rpos (fun q => decide (c0 + 1 ≤ q.2))
        ((h.counts.set cidx (j, c0 + 1)).take cidx) with _ | k
    · -- rposition found nothing: swap with position 0
      show Inv (swapStep h.values (h.counts.set cidx (j, c0 + 1)) cidx 0)
      have hnone := rpos_none _ _ hrp
      refine inv_swapStep h.values _ cidx 0 (c0 + 1)
        (by rw [hlen1]; exact hlen) (by rw [hlen1]; exact hc) (by omega)
        hcnt1 hres1 hcores1 hpos1 hso1 (by omega) ?_ ?_
      · intro m hm0 hm
        rw [hC1 m, if_neg (by omega)]
        have h1 := hnone m (0, 0) (by omega)
        rw [show atD ((h.counts.set cidx (j, c0 + 1)).take cidx) m (0, 0) =
            cAt h.counts m from hpreAt m hm] at h1
        have h2 : ¬ (c0 + 1 ≤ (cAt h.counts m).2) := by
          simpa using h1
        exact hmid m hm (by omega)
      · intro m hm hmlen
        rw [hlen1] at hmlen
        rw [hC1 m, if_neg (by omega)]
        have h' := hsor cidx m (by omega) hmlen
        omega
    · -- rposition found index k: swap with position k + 1
      show Inv (swapStep h.values (h.counts.set cidx (j, c0 + 1)) cidx (k + 1))
      have hklt : k < cidx := by
        have := rpos_some_lt _ _ _ hrp
        rwa [hprelen] at this
      have hkp : c0 + 1 ≤ (cAt h.counts k).2 := by
        have h1 := rpos_some_p _ _ _ hrp (0, 0)
        rw [show atD ((h.counts.set cidx (j, c0 + 1)).take cidx) k (0, 0) =
            cAt h.counts k from hpreAt k hklt] at h1
        simpa using h1
      have hkne : k ≠ cidx - 1 := by
        intro he
        rw [he, hprev] at hkp
        omega
      have hslt : k + 1 < cidx := by omega
      refine inv_swapStep h.values _ cidx (k + 1) (c0 + 1)
        (by rw [hlen1]; exact hlen) (by rw [hlen1]; exact hc) hslt
        hcnt1 hres1 hcores1 hpos1 hso1 ?_ ?_ ?_
      · intro m hm
        rw [hC1 m, if_neg (by omega)]
        have h' := hsor m k (by omega) (by omega)
        omega
      · intro m hm0 hm
        rw [hC1 m, if_neg (by omega)]
        have h1 := rpos_some_max _ _ _ hrp m (0, 0) (by omega)
          (by rw [hprelen]; omega)
        rw [show atD ((h.counts.set cidx (j, c0 + 1)).take cidx) m (0, 0) =
            cAt h.counts m from hpreAt m hm] at h1
        have h2 : ¬ (c0 + 1 ≤ (cAt h.counts m).2) := by
          simpa using h1
        exact hmid m hm (by omega)
      · intro m hm hmlen
        rw [hlen1] at hmlen
        rw [hC1 m, if_neg (by omega)]
        have h' := hsor cidx m (by omega) hmlen
        omega
  · rw [if_neg hcond]
    refine ⟨?_, ?_, ?_, ?_, ?_⟩
    · show (h.counts.set cidx (j, c0 + 1)).length = h.values.length
      rw [hlen1]
      exact hlen
    · exact hres1
    · exact hcores1
    · exact hpos1
    · intro i0 k0 hik hk0
      have hk' : k0 < h.counts.length := by
        rw [show ((⟨h.values, h.counts.set cidx (j, c0 + 1)⟩ :
          Histogram)).counts = h.counts.set cidx (j, c0 + 1) from rfl,
          hlen1] at hk0
        exact hk0
      show (cAt (h.counts.set cidx (j, c0 + 1)) k0).2 ≤
        (cAt (h.counts.set cidx (j, c0 + 1)) i0).2
      rw [hC1 i0, hC1 k0]
      by_cases hkc : k0 = cidx
      · rw [if_pos hkc]
        by_cases hic : i0 = cidx
        · rw [if_pos hic]
        · rw [if_neg hic]
          show c0 + 1 ≤ (cAt h.counts i0).2
          have hcne : cidx ≠ 0 := by omega
          have hge : ¬ ((cAt (h.counts.set cidx (j, c0 + 1)) (cidx - 1)).2
              < c0 + 1) := by
            rcases not_and_or.mp hcond with h' | h'
            · exact absurd hcne h'
            · exact h'
          rw [hC1 (cidx - 1), if_neg (show cidx - 1 ≠ cidx by omega)] at hge
          have h' := hsor i0 (cidx - 1) (by omega) (by omega)
          omega
      · rw [if_neg hkc]
        by_cases hic : i0 = cidx
        · rw [if_pos hic]
          show (cAt h.counts k0).2 ≤ c0 + 1
          have h' := hsor cidx k0 (by omega) hk'
          have hcc : (cAt h.counts cidx).2 = c0 := by rw [hq]
          omega
        · rw [if_neg hic]
          exact hsor i0 k0 hik hk'

/-- Invariant preservation through the new-value branch of register. -/
theorem inv_registerNew (h : Histogram) (v : ByteStr) (hI : Inv h) :
    Inv (registerNew h v) := by
  obtain ⟨hlen, hres, hcores, hpos, hsor⟩ := hI
  refine ⟨?_, ?_, ?_, ?_, ?_⟩
  · show (h.counts ++ [(h.values.length, 1)]).length =
      (h.values ++ [(v, h.counts.length)]).length
    simp [hlen]
  · intro x hx
    have hx2 : x < h.values.length + 1 := by simpa [registerNew] using hx
    show (vAt (h.values ++ [(v, h.counts.length)]) x).2 <
        (h.counts ++ [(h.values.length, 1)]).length ∧
      (cAt (h.counts ++ [(h.values.length, 1)])
        (vAt (h.values ++ [(v, h.counts.length)]) x).2).1 = x
    rcases Nat.lt_or_ge x h.values.length with hlt | hge
    · rw [show vAt (h.values ++ [(v, h.counts.length)]) x = vAt h.values x
        from atD_append_left _ _ _ _ hlt]
      obtain ⟨h1, h2⟩ := hres x hlt
      refine ⟨by simp; omega, ?_⟩
      rw [show cAt (h.counts ++ [(h.values.length, 1)]) (vAt h.values x).2 =
          cAt h.counts (vAt h.values x).2 from atD_append_left _ _ _ _ h1]
      exact h2
    · have hxeq : x = h.values.length := by omega
      rw [hxeq, show vAt (h.values ++ [(v, h.counts.length)]) h.values.length =
        (v, h.counts.length) from atD_concat_self _ _ _]
      refine ⟨by simp, ?_⟩
      rw [show cAt (h.counts ++ [(h.values.length, 1)]) (v, h.counts.length).2 =
        (h.values.length, 1) from atD_concat_self _ _ _]
  · intro i0 hi0
    have hi2 : i0 < h.counts.length + 1 := by simpa [registerNew] using hi0
    show (cAt (h.counts ++ [(h.values.length, 1)]) i0).1 <
        (h.values ++ [(v, h.counts.length)]).length ∧
      (vAt (h.values ++ [(v, h.counts.length)])
        (cAt (h.counts ++ [(h.values.length, 1)]) i0).1).2 = i0
    rcases Nat.lt_or_ge i0 h.counts.length with hlt | hge
    · rw [show cAt (h.counts ++ [(h.values.length, 1)]) i0 = cAt h.counts i0
        from atD_append_left _ _ _ _ hlt]
      obtain ⟨h1, h2⟩ := hcores i0 hlt
      refine ⟨by simp; omega, ?_⟩
      rw [show vAt (h.values ++ [(v, h.counts.length)]) (cAt h.counts i0).1 =
          vAt h.values (cAt h.counts i0).1 from atD_append_left _ _ _ _ h1]
      exact h2
    · have hieq : i0 = h.counts.length := by omega
      rw [hieq, show cAt (h.counts ++ [(h.values.length, 1)]) h.counts.length =
        (h.values.length, 1) from atD_concat_self _ _ _]
      refine ⟨by simp, ?_⟩
      rw [show vAt (h.values ++ [(v, h.counts.length)]) (h.values.length, 1).1 =
        (v, h.counts.length) from atD_concat_self _ _ _]
  · intro i0 hi0
    have hi2 : i0 < h.counts.length + 1 := by simpa [registerNew] using hi0
    show 1 ≤ (cAt (h.counts ++ [(h.values.length, 1)]) i0).2
    rcases Nat.lt_or_ge i0 h.counts.length with hlt | hge
    · rw [show cAt (h.counts ++ [(h.values.length, 1)]) i0 = cAt h.counts i0
        from atD_append_left _ _ _ _ hlt]
      exact hpos i0 hlt
    · have hieq : i0 = h.counts.length := by omega
      rw [hieq, show cAt (h.counts ++ [(h.values.length, 1)]) h.counts.length =
        (h.values.length, 1) from atD_concat_self _ _ _]
  · intro i0 k0 hik hk0
    have hk2 : k0 < h.counts.length + 1 := by simpa [registerNew] using hk0
    show (cAt (h.counts ++ [(h.values.length, 1)]) k0).2 ≤
      (cAt (h.counts ++ [(h.values.length, 1)]) i0).2
    rcases Nat.lt_or_ge k0 h.counts.length with hklt | hkge
    · rw [show cAt (h.counts ++ [(h.values.length, 1)]) k0 = cAt h.counts k0
          from atD_append_left _ _ _ _ hklt,
        show cAt (h.counts ++ [(h.values.length, 1)]) i0 = cAt h.counts i0
          from atD_append_left _ _ _ _ (by omega)]
      exact hsor i0 k0 hik hklt
    · have hkeq : k0 = h.counts.length := by omega
      rw [hkeq, show cAt (h.counts ++ [(h.values.length, 1)]) h.counts.length =
        (h.values.length, 1) from atD_concat_self _ _ _]
      rcases Nat.lt_or_ge i0 h.counts.length with hilt | hige
      · rw [show cAt (h.counts ++ [(h.values.length, 1)]) i0 = cAt h.counts i0
          from atD_append_left _ _ _ _ hilt]
        have := hpos i0 hilt
        omega
      · have hieq : i0 = h.counts.length := by omega
        rw [hieq, show cAt (h.counts ++ [(h.values.length, 1)])
          h.counts.length = (h.values.length, 1) from atD_concat_self _ _ _]

/-- The empty histogram satisfies the invariant. -/
theorem inv_empty : Inv Histogram.empty := by
  refine ⟨rfl, ?_, ?_, ?_, ?_⟩
  · intro a ha
    simp [Histogram.empty] at ha
  · intro a ha
    simp [Histogram.empty] at ha
  · intro a ha
    simp [Histogram.empty] at ha
  · intro a b hab hb
    simp [Histogram.empty] at hb

/-- Invariant preservation through one register call. -/
theorem inv_register (h : Histogram) (v : ByteStr) (hI : Inv h) :
    Inv (h.register v) := by
  unfold Histogram.register
  cases hf : h.values.find? (fun p => p.1 == v) with
  | none => exact inv_registerNew h v hI
  | some pair =>
    obtain ⟨j, hj, hjq⟩ := find?_index _ _ _ hf
    have hv : vAt h.values j = pair := by simp [vAt, atD, hjq]
    have hlt : pair.2 < h.counts.length := by
      have h' := (hI.2.1 j hj).1
      rw [hv] at h'
      exact h'
    exact inv_registerBump h pair.2 hI hlt

/-- The invariant holds after any sequence of register calls. -/
theorem inv_registerAll (vs : List ByteStr) : Inv (registerAll vs) := by
  have gen : ∀ (l : List ByteStr) (h0 : Histogram), Inv h0 →
      Inv (l.foldl Histogram.register h0) := by
    intro l
    induction l with
    | nil => intro h0 hI; exact hI
    | cons a l ih =>
      intro h0 hI
      exact ih _ (inv_register h0 a hI)
  exact gen vs Histogram.empty inv_empty

end HistogramLemmas

/-- C1: parenthesized filter expressions are NOT semantically transparent
— they do not even compile. The sub-expression of "(1)" ends by peeking
the closing parenthesis, which parse_expr rejects with "Expected && or
||" (only a logical operator or end of input may follow an action), so
compilation of "(1)" fails while "1" compiles and accepts the record
["a"]. (The branch that would accept the parenthesis is unreachable, and
it would build Unary(true, child) — a negation — not negate=false.) -/
theorem paren_filter_code_bug :
    Filter.compile "(1)".toList =
      .error ((2, 3), "Expected && or ||".toList) ∧
      (Filter.compile "1".toList).toOption.map
        (fun f => Engine.check ⟨f, ⟨[], [0]⟩⟩ ⟨['a'], [0, 1]⟩) = some true := by
  constructor <;> rfl

/-- C2 counterexample: a record whose single field holds the raw bytes
" a " (buffer " a ", bounds [0, 3]) is tested by the evaluator as "a" —
by_id returns the trimmed bytes, not the raw ones. -/
theorem by_id_trims_counterexample :
    Engine.by_id
      ⟨⟨[], [], [(.idx 1, (0, u32Max))], [], [], 0⟩, ⟨[], [0]⟩⟩
      ⟨[' ', 'a', ' '], [0, 3]⟩ 0 = ['a'] ∧
      (['a'] : ByteStr) ≠ [' ', 'a', ' '] := by
  constructor
  · rfl
  · decide

/-- The field fetched by by_id is the trim of the raw field bytes. -/
theorem get_trims (record : NestedString) (o : Option Nat) :
    ((o.bind (fun i0 => record.get i0)).getD []) =
      trimBytes (rawField record o) := by
  cases o with
  | none => rfl
  | some i0 =>
    simp only [Option.bind]
    unfold NestedString.get rawField
    by_cases h : i0 < record.len
    · simp [h, NestedString.get_str_trim]
    · simp [h]
      rfl

/-- C2 amended: for every record and every column reference of a filter,
the byte string the evaluator tests (before range slicing) is the
TRIMMED bytes of the resolved field: by_id equals the clamped range
slice applied to trim(raw field bytes). -/
theorem by_id_tests_trimmed_bytes (e : Engine) (record : NestedString)
    (i : Nat) :
    Engine.by_id e record i =
      applyRange (e.filter.idx.getD i (.idx 1, (0, u32Max))).2.1
        (e.filter.idx.getD i (.idx 1, (0, u32Max))).2.2
        (trimBytes (rawField record
          (resolveCol e (e.filter.idx.getD i (.idx 1, (0, u32Max))).1))) := by
  simp only [Engine.by_id, applyRange]
  rw [get_trims]

/-- The indexer loop yields the promised index when the engine accepts
every record. -/
theorem bgIndexLoop_all_accept (e : Engine)
    (he : e.filter.nodes = [])
    (reads : List (NestedString × Nat)) (c p : Nat)
    (ha : ∀ r ∈ reads, r.2 ≠ 0) :
    bgIndexLoop e reads c p = indexSpec reads c p := by
  induction reads generalizing c p with
  | nil => rfl
  | cons hd rest ih =>
    rcases hd with ⟨r, amount⟩
    have hne : amount ≠ 0 := ha (r, amount) (List.mem_cons_self _ _)
    have hcheck : e.check r = true := by
      unfold Engine.check
      rw [if_pos (by simp [he])]
    simp only [bgIndexLoop, indexSpec, if_neg hne, hcheck]
    rw [ih _ _ (fun r hr => ha r (List.mem_cons_of_mem _ hr))]
    rfl

/-- indexSpec has one entry per record. -/
theorem indexSpec_length (reads : List (NestedString × Nat)) (c p : Nat) :
    (indexSpec reads c p).length = reads.length := by
  induction reads generalizing c p with
  | nil => rfl
  | cons hd rest ih =>
    rcases hd with ⟨r, amount⟩
    simp [indexSpec, ih]

/-- indexSpec ordinals are consecutive from the start ordinal. -/
theorem indexSpec_map_fst (reads : List (NestedString × Nat)) (c p : Nat) :
    (indexSpec reads c p).map Prod.fst = List.range' c reads.length := by
  induction reads generalizing c p with
  | nil => rfl
  | cons hd rest ih =>
    rcases hd with ⟨r, amount⟩
    simp [indexSpec, List.range'_succ, ih]

/-- C6: a Filter with no nodes is the identity filter — Engine::check
accepts every record — so the indexer appends an entry (ordinal, offset)
for every data record (every read consuming at least one byte), with
ordinals 0, 1, 2, ... in source order, and the final row count equals
the number of data records. -/
theorem empty_filter_indexes_every_record (f : Filter)
    (hdr : NestedString) (reads : List (NestedString × Nat)) (p0 : Nat)
    (hf : f.nodes = []) (ha : ∀ r ∈ reads, r.2 ≠ 0) :
    bgIndex f hdr reads p0 = indexSpec reads 0 p0 ∧
      (bgIndex f hdr reads p0).length = reads.length ∧
      (bgIndex f hdr reads p0).map Prod.fst = List.range reads.length := by
  have h1 : bgIndex f hdr reads p0 = indexSpec reads 0 p0 :=
    bgIndexLoop_all_accept ⟨f, hdr⟩ hf reads 0 p0 ha
  refine ⟨h1, ?_, ?_⟩
  · rw [h1, indexSpec_length]
  · rw [h1, indexSpec_map_fst, List.range_eq_range']

/-- C6 witness: two one-field records of sizes 2 and 3 starting at byte
offset 5, indexed under the empty filter. -/
theorem empty_filter_indexes_every_record_witness :
    bgIndex ⟨[], [], [], [], [], 0⟩ ⟨[], [0]⟩
        [(⟨['a'], [0, 1]⟩, 2), (⟨['b'], [0, 1]⟩, 3)] 5 =
      indexSpec [(⟨['a'], [0, 1]⟩, 2), (⟨['b'], [0, 1]⟩, 3)] 0 5 ∧
      (bgIndex ⟨[], [], [], [], [], 0⟩ ⟨[], [0]⟩
        [(⟨['a'], [0, 1]⟩, 2), (⟨['b'], [0, 1]⟩, 3)] 5).length = 2 ∧
      (bgIndex ⟨[], [], [], [], [], 0⟩ ⟨[], [0]⟩
        [(⟨['a'], [0, 1]⟩, 2), (⟨['b'], [0, 1]⟩, 3)] 5).map Prod.fst =
        List.range 2 :=
  empty_filter_indexes_every_record ⟨[], [], [], [], [], 0⟩ ⟨[], [0]⟩
    [(⟨['a'], [0, 1]⟩, 2), (⟨['b'], [0, 1]⟩, 3)] 5 rfl (by decide)

/-- C8: after every sequence of register calls starting from the empty
histogram (hence after every single register call), counts is sorted by
count in descending order, and for every registered key K (identified by
its insertion position j in the insertion-ordered map) the two
indirections resolve: values[j] is a valid index into counts and
counts[values[j]].value_index points back at j. -/
theorem histogram_register_invariant (vs : List ByteStr) :
    SortedD (registerAll vs).counts ∧
      ∀ j, j < (registerAll vs).values.length →
        (vAt (registerAll vs).values j).2 < (registerAll vs).counts.length ∧
          (cAt (registerAll vs).counts
            (vAt (registerAll vs).values j).2).1 = j := by
  obtain ⟨-, hres, -, -, hsor⟩ := inv_registerAll vs
  exact ⟨hsor, hres⟩

/-- C4: on the residual input "a,1" / "b,c" — no empty header field, the
header is not uniformly String (so rule 2 cannot fire), and the two type
vectors differ (String,Number vs String,String, so rule 3 cannot fire) —
source.rs sniff_has_header returns false (NO header), contradicting rule 4
of the spec and its own closing comment; the read.rs sniffing version of
the same function returns true. -/
theorem sniff_has_header_residual_code_bug :
    sniff_has_header_source [['a'], ['1']] [['b'], ['c']] = some false ∧
      sniff_has_header_read [['a'], ['1']] [['b'], ['c']] = some true := by
  constructor <;> rfl

/-- C5 counterexample: at S = u32::MAX = 4294967295 the single-index range
[S] compiles successfully but, because start + 1 wraps module 2^32, the
produced range is (4294967295, 0) — an empty range, not [S, S+1). -/
theorem parse_range_single_index_overflow :
    Compiler.parse_range
      [⟨.openRange, ['['], 0, 1⟩,
       ⟨.nb, ['4', '2', '9', '4', '9', '6', '7', '2', '9', '5'], 1, 11⟩,
       ⟨.closeRange, [']'], 11, 12⟩] =
      .ok ((4294967295, 0), []) ∧ (0 : Nat) ≠ 4294967295 + 1 := by
  constructor
  · rfl
  · decide

/-- C5 amended: for every single-index range [S] whose index S satisfies
S < u32::MAX, compilation succeeds and yields the non-empty range
(S, S + 1), exactly as the spec states. -/
theorem parse_range_single_index (str s1 s3 : List Char)
    (S a b c d e f : Nat) (rest : List CTok)
    (hp : parseU32 str = some S) (hS : S < u32Max) :
    Compiler.parse_range
      (⟨.openRange, s1, a, b⟩ :: ⟨.nb, str, c, d⟩ ::
        ⟨.closeRange, s3, e, f⟩ :: rest) = .ok ((S, S + 1), rest) := by
  have hS' : S + 1 < 2 ^ 32 := by simp only [u32Max] at hS; omega
  have hm : (S + 1) % 2 ^ 32 = S + 1 := Nat.mod_eq_of_lt hS'
  simp [Compiler.parse_range, peekC, hp, hm]
  omega

/-- C5 witness: [7] compiles to the range (7, 8). -/
theorem parse_range_single_index_witness :
    parseU32 ['7'] = some 7 ∧ (7 : Nat) < u32Max ∧
      Compiler.parse_range
        [⟨.openRange, ['['], 0, 1⟩, ⟨.nb, ['7'], 1, 2⟩,
         ⟨.closeRange, [']'], 2, 3⟩] = .ok ((7, 8), []) :=
  ⟨by decide, by decide,
    parse_range_single_index ['7'] ['['] [']'] 7 0 1 1 2 2 3 []
      (by decide) (by decide)⟩

/-- The decoder model never yields an empty field list. -/
theorem splitFields_ne_nil (d : Char) (l : List Char) :
    splitFields d l ≠ [] := by
  induction l with
  | nil => simp [splitFields]
  | cons c rest ih =>
    simp only [splitFields]
    by_cases h : c = d
    · simp [h]
    · simp only [if_neg h]
      cases hs : splitFields d rest with
      | nil => exact absurd hs ih
      | cons f fs => simp

/-- Appending one delimiter to a line appends one empty field. -/
theorem splitFields_append_delim (d : Char) (l : List Char) :
    splitFields d (l ++ [d]) = splitFields d l ++ [[]] := by
  induction l with
  | nil => simp [splitFields]
  | cons c rest ih =>
    simp only [List.cons_append, splitFields]
    by_cases h : c = d
    · simp [h, ih]
    · rw [if_neg h]
      simp only [List.append_eq]
      rw [ih]
      cases hs : splitFields d rest with
      | nil => exact absurd hs (splitFields_ne_nil d rest)
      | cons f fs => simp [h]

/-- C9 counterexample: the line "a,," ends with a dangling delimiter, yet
it decodes to 2 fields while the same line without the trailing delimiter
("a,") decodes to 1 field — the collapse removes only one empty field, so
the claimed equality of field counts fails. -/
theorem read_record_dangling_counterexample :
    read_record ',' ['a', ',', ','] = [['a'], []] ∧
      read_record ',' ['a', ','] = [['a']] ∧ (2 : Nat) ≠ 1 := by
  refine ⟨rfl, rfl, by decide⟩

/-- C9 amended: whenever the decoder produces more than one field and the
last field is empty, exactly one trailing empty field is removed; hence a
line whose own decode does not already end in an empty field (or has a
single field) decodes, after a dangling delimiter is appended, to exactly
the same record as without it. -/
theorem read_record_dangling (d : Char) (line : List Char)
    (h : (splitFields d line).length ≤ 1 ∨
      (splitFields d line).getLast? ≠ some []) :
    read_record d (line ++ [d]) = read_record d line := by
  have hne := splitFields_ne_nil d line
  have hlen : 1 ≤ (splitFields d line).length :=
    List.length_pos.mpr hne
  unfold read_record
  rw [splitFields_append_delim]
  have h1 : collapseTrailing (splitFields d line ++ [[]]) =
      splitFields d line := by
    unfold collapseTrailing
    rw [if_pos]
    · exact List.dropLast_concat ..
    · refine ⟨by simp; omega, ?_⟩
      simp [List.getLast?_concat]
  have h2 : collapseTrailing (splitFields d line) = splitFields d line := by
    unfold collapseTrailing
    rw [if_neg]
    intro ⟨hl, hg⟩
    rcases h with h | h
    · omega
    · exact h hg
  rw [h1, h2]

/-- C9 witness: "a" plus a dangling comma decodes like "a" itself. -/
theorem read_record_dangling_witness :
    ((splitFields ',' ['a']).length ≤ 1 ∨
      (splitFields ',' ['a']).getLast? ≠ some []) ∧
      read_record ',' (['a'] ++ [',']) = read_record ',' ['a'] :=
  ⟨Or.inl (by decide), read_record_dangling ',' ['a'] (Or.inl (by decide))⟩

section HighlighterLemmas

theorem findIdx?_lt_length {α : Type} (p : α → Bool) (l : List α) (i : Nat)
    (h : l.findIdx? p = some i) : i < l.length := by
  induction l generalizing i with
  | nil => simp [List.findIdx?] at h
  | cons a l ih =>
    rw [List.findIdx?_cons] at h
    by_cases hp : p a
    · rw [if_pos hp] at h
      injection h with h
      subst h
      simp
    · rw [if_neg hp, List.findIdx?_succ] at h
      rcases Option.map_eq_some'.mp h with ⟨k, hk, rfl⟩
      have := ih k hk
      simp
      omega

theorem untilWs_le (l : List Char) : untilWs l ≤ l.length := by
  unfold untilWs
  cases h : l.findIdx? (fun c => !(isWs c)) with
  | none => simp
  | some i => exact Nat.le_of_lt (findIdx?_lt_length _ _ _ h)

theorem twoCharKind_ne_eof (a b : Char) (k : TokenKind)
    (h : twoCharKind a b = some k) : k ≠ .eof := by
  unfold twoCharKind at h
  split at h <;> try (injection h with h)
  all_goals try subst h
  all_goals simp_all

theorem oneCharKind_ne_eof (a : Char) (k : TokenKind)
    (h : oneCharKind a = some k) : k ≠ .eof := by
  unfold oneCharKind at h
  split at h <;> try (injection h with h)
  all_goals try subst h
  all_goals simp_all

theorem twoOf_ne_eof (rem : List Char) (k : TokenKind)
    (h : twoOf rem = some k) : k ≠ .eof := by
  unfold twoOf at h
  split at h
  · exact twoCharKind_ne_eof _ _ _ h
  · simp at h

theorem barewordKind_ne_eof (s : List Char) : barewordKind s ≠ .eof := by
  intro h
  rw [barewordKind] at h
  rcases Decidable.em (s = "eq".toList) with h1 | h1
  · rw [if_pos h1] at h; exact TokenKind.noConfusion h
  rw [if_neg h1] at h
  rcases Decidable.em (s = "ne".toList) with h2 | h2
  · rw [if_pos h2] at h; exact TokenKind.noConfusion h
  rw [if_neg h2] at h
  rcases Decidable.em (s = "gt".toList) with h3 | h3
  · rw [if_pos h3] at h; exact TokenKind.noConfusion h
  rw [if_neg h3] at h
  rcases Decidable.em (s = "lt".toList) with h4 | h4
  · rw [if_pos h4] at h; exact TokenKind.noConfusion h
  rw [if_neg h4] at h
  rcases Decidable.em (s = "ge".toList) with h5 | h5
  · rw [if_pos h5] at h; exact TokenKind.noConfusion h
  rw [if_neg h5] at h
  rcases Decidable.em (s = "le".toList) with h6 | h6
  · rw [if_pos h6] at h; exact TokenKind.noConfusion h
  rw [if_neg h6] at h
  rcases Decidable.em (s = "and".toList) with h7 | h7
  · rw [if_pos h7] at h; exact TokenKind.noConfusion h
  rw [if_neg h7] at h
  rcases Decidable.em (s = "or".toList) with h8 | h8
  · rw [if_pos h8] at h; exact TokenKind.noConfusion h
  rw [if_neg h8] at h
  rcases Decidable.em (s = "all".toList) with h9 | h9
  · rw [if_pos h9] at h; exact TokenKind.noConfusion h
  rw [if_neg h9] at h
  rcases Decidable.em (s = "any".toList) with h10 | h10
  · rw [if_pos h10] at h; exact TokenKind.noConfusion h
  rw [if_neg h10] at h
  rcases Decidable.em (s = "matches".toList) with h11 | h11
  · rw [if_pos h11] at h; exact TokenKind.noConfusion h
  rw [if_neg h11] at h
  rcases Decidable.em (s = "not".toList) with h12 | h12
  · rw [if_pos h12] at h; exact TokenKind.noConfusion h
  rw [if_neg h12] at h
  rcases Decidable.em ((parseDecimalM s).isSome = true) with h13 | h13
  · rw [if_pos h13] at h; exact TokenKind.noConfusion h
  · rw [if_neg h13] at h; exact TokenKind.noConfusion h

theorem strTok_ok (a : Char) (rest : List Char) :
    (strTok (a :: rest) rest).2 ≤ (a :: rest).length ∧
      1 ≤ (strTok (a :: rest) rest).2 ∧ (strTok (a :: rest) rest).1 ≠ .eof := by
  unfold strTok
  cases h : rest.findIdx? (fun c => c = '"') with
  | none => simp
  | some i =>
    have := findIdx?_lt_length _ _ _ h
    simp
    omega

theorem nbTok_ok (a : Char) (rest : List Char) :
    (nbTok (a :: rest) rest).2 ≤ (a :: rest).length ∧
      1 ≤ (nbTok (a :: rest) rest).2 ∧ (nbTok (a :: rest) rest).1 ≠ .eof := by
  unfold nbTok
  cases h : rest.findIdx? (fun c => !c.isDigit) with
  | none => simp
  | some i =>
    have := findIdx?_lt_length _ _ _ h
    simp
    omega

theorem idTok_ok (a : Char) (rest : List Char) :
    (idTok (a :: rest) rest).2 ≤ (a :: rest).length ∧
      1 ≤ (idTok (a :: rest) rest).2 ∧ (idTok (a :: rest) rest).1 ≠ .eof := by
  unfold idTok
  cases h : rest.findIdx? (fun c => !c.isAlphanum) with
  | none => simp [barewordKind_ne_eof]
  | some i =>
    have := findIdx?_lt_length _ _ _ h
    simp [barewordKind_ne_eof]
    omega

theorem tokCore_ok (rem : List Char) :
    (tokCore rem).2 ≤ rem.length ∧
      ((tokCore rem).1 = .eof ↔ rem = []) ∧
      (rem ≠ [] → 1 ≤ (tokCore rem).2) := by
  cases rem with
  | nil => simp [tokCore]
  | cons a rest =>
    simp only [tokCore]
    cases h2 : twoOf (a :: rest) with
    | some k =>
      have hk : k ≠ .eof := twoOf_ne_eof _ _ h2
      have hlen : 2 ≤ (a :: rest).length := by
        unfold twoOf at h2
        cases rest with
        | nil => simp at h2
        | cons b r2 => simp
      exact ⟨hlen, by simp [hk], fun _ => by simp⟩
    | none =>
      cases h1 : oneCharKind a with
      | some k =>
        have hk : k ≠ .eof := oneCharKind_ne_eof a k h1
        exact ⟨by simp, by simp [hk], fun _ => by simp⟩
      | none =>
        by_cases hq : a = '"'
        · simp only [if_pos hq]
          have hs := strTok_ok a rest
          exact ⟨hs.1, by simp [hs.2.2], fun _ => hs.2.1⟩
        · simp only [if_neg hq]
          by_cases hd : a.isDigit
          · simp only [if_pos hd]
            have hs := nbTok_ok a rest
            exact ⟨hs.1, by simp [hs.2.2], fun _ => hs.2.1⟩
          · simp only [if_neg hd]
            have hs := idTok_ok a rest
            exact ⟨hs.1, by simp [hs.2.2], fun _ => hs.2.1⟩

theorem lexNextTok_ok (src : List Char) (offset : Nat)
    (h : offset ≤ src.length) :
    TokOk src.length (lexNextTok src offset) ∧
      offset ≤ (lexNextTok src offset).spanStart := by
  have hu : untilWs (src.drop offset) ≤ src.length - offset := by
    have := untilWs_le (src.drop offset)
    simpa using this
  set o := offset + untilWs (src.drop offset) with ho
  have hol : o ≤ src.length := by omega
  have hdrop : (src.drop o).length = src.length - o := by simp
  obtain ⟨hle, hiff, hpos⟩ := tokCore_ok (src.drop o)
  rw [hdrop] at hle
  constructor
  · refine ⟨by simp [lexNextTok], ?_, ?_, ?_⟩
    · show o + (tokCore (src.drop o)).2 ≤ src.length
      omega
    · intro hk
      show o = src.length
      have : src.drop o = [] := hiff.mp hk
      have : src.length - o = 0 := by
        rw [← hdrop, this]
        rfl
      omega
    · intro hk
      show o < o + (tokCore (src.drop o)).2
      have hne : src.drop o ≠ [] := fun he => hk (hiff.mpr he)
      have := hpos hne
      omega
  · show offset ≤ o
    omega

theorem lpOf_le_len (src : List Char) (lx : Lexer) (h : LexOk src lx) :
    lpOf lx ≤ src.length := by
  obtain ⟨h1, h2⟩ := h
  unfold lpOf
  cases hp : lx.peeked with
  | none => exact h1
  | some t =>
    obtain ⟨⟨ha, hb, hc, hd⟩, he⟩ := h2 t hp
    show t.spanStart ≤ src.length
    omega

theorem lexNext_peeked (src : List Char) (lx : Lexer) (t : Token)
    (h : lx.peeked = some t) : lexNext src lx = (t, ⟨lx.offset, none⟩) := by
  unfold lexNext
  rw [h]

theorem lexNext_ok (src : List Char) (lx : Lexer) (h : LexOk src lx) :
    TokOk src.length (lexNext src lx).1 ∧ LexOk src (lexNext src lx).2 ∧
      lpOf lx ≤ (lexNext src lx).1.spanStart ∧
      lpOf (lexNext src lx).2 = (lexNext src lx).1.spanEnd := by
  obtain ⟨h1, h2⟩ := h
  unfold lexNext
  cases hp : lx.peeked with
  | some t =>
    obtain ⟨hT, hE⟩ := h2 t hp
    refine ⟨hT, ⟨h1, fun t' ht' => Option.noConfusion ht'⟩, ?_, ?_⟩
    · simp [lpOf, hp]
    · show lx.offset = t.spanEnd
      omega
  | none =>
    obtain ⟨hT, hS⟩ := lexNextTok_ok src lx.offset h1
    refine ⟨hT, ⟨hT.2.1, fun t' ht' => Option.noConfusion ht'⟩, ?_, ?_⟩
    · simp only [lpOf, hp]
      exact hS
    · rfl

theorem lexPeek_ok (src : List Char) (lx : Lexer) (h : LexOk src lx) :
    TokOk src.length (lexPeek src lx).1 ∧ LexOk src (lexPeek src lx).2 ∧
      lpOf lx ≤ (lexPeek src lx).1.spanStart ∧
      lpOf (lexPeek src lx).2 = (lexPeek src lx).1.spanStart ∧
      (lexPeek src lx).2.peeked = some (lexPeek src lx).1 := by
  obtain ⟨h1, h2⟩ := h
  unfold lexPeek
  cases hp : lx.peeked with
  | some t =>
    obtain ⟨hT, hE⟩ := h2 t hp
    refine ⟨hT, ⟨h1, h2⟩, ?_, ?_, hp⟩
    · simp [lpOf, hp]
    · simp [lpOf, hp]
  | none =>
    obtain ⟨hT, hS⟩ := lexNextTok_ok src lx.offset h1
    refine ⟨hT, ⟨hT.2.1, ?_⟩, ?_, ?_, rfl⟩
    · intro t' ht'
      have he : lexNextTok src lx.offset = t' := by
        injection ht'
      rw [← he]
      exact ⟨hT, rfl⟩
    · simp only [lpOf, hp]
      exact hS
    · rfl

theorem takeKind_ok (src : List Char) (k : TokenKind) (lx : Lexer)
    (h : LexOk src lx) :
    LexOk src (takeKind src k lx).2 ∧
      lpOf lx ≤ lpOf (takeKind src k lx).2 ∧
      ∀ t, (takeKind src k lx).1 = some t →
        TokOk src.length t ∧ t.kind = k ∧ lpOf lx ≤ t.spanStart ∧
          lpOf (takeKind src k lx).2 = t.spanEnd := by
  obtain ⟨hT, hL, hst, hlp, hpe⟩ := lexPeek_ok src lx h
  have hnx := lexNext_peeked src (lexPeek src lx).2 (lexPeek src lx).1 hpe
  have hoff : (lexPeek src lx).1.spanEnd = (lexPeek src lx).2.offset :=
    (hL.2 (lexPeek src lx).1 hpe).2
  have hse : (lexPeek src lx).1.spanStart ≤ (lexPeek src lx).1.spanEnd := hT.1
  have hTK : takeKind src k lx =
      if (lexPeek src lx).1.kind = k then
        (some (lexNext src (lexPeek src lx).2).1,
          (lexNext src (lexPeek src lx).2).2)
      else (none, (lexPeek src lx).2) := rfl
  rw [hnx] at hTK
  by_cases hk : (lexPeek src lx).1.kind = k
  · rw [if_pos hk] at hTK
    rw [hTK]
    refine ⟨⟨hL.1, fun t' ht' => Option.noConfusion ht'⟩, ?_, ?_⟩
    · show lpOf lx ≤ (lexPeek src lx).2.offset
      omega
    · intro t ht
      have het : (lexPeek src lx).1 = t := by
        injection ht
      subst het
      refine ⟨hT, hk, hst, ?_⟩
      show (lexPeek src lx).2.offset = (lexPeek src lx).1.spanEnd
      omega
  · rw [if_neg hk] at hTK
    rw [hTK]
    refine ⟨hL, ?_, fun t ht => Option.noConfusion ht⟩
    show lpOf lx ≤ lpOf (lexPeek src lx).2
    omega

theorem hlAdd_ok (sr : List (Nat × Style)) (rs re : Nat) (st : Style)
    (hne : sr ≠ []) (hch : List.Chain' (fun a b => b.1 ≤ a.1) sr)
    (hlast : ((sr.getLast?).getD (0, Style.none)).1 = 0)
    (hrs : srLast sr ≤ rs) (hre : rs ≤ re) :
    hlAdd sr rs re st ≠ [] ∧
      List.Chain' (fun a b => b.1 ≤ a.1) (hlAdd sr rs re st) ∧
      (((hlAdd sr rs re st).getLast?).getD (0, Style.none)).1 = 0 ∧
      srLast (hlAdd sr rs re st) = re := by
  cases sr with
  | nil => exact absurd rfl hne
  | cons last rest =>
    have hhd : srLast (last :: rest) = last.1 := rfl
    simp only [hlAdd]
    by_cases heq : last.1 = rs
    · rw [if_pos heq]
      refine ⟨by simp, ?_, ?_, rfl⟩
      · rw [List.chain'_cons]
        refine ⟨hre, ?_⟩
        cases rest with
        | nil => exact List.chain'_singleton _
        | cons b r2 =>
          rw [List.chain'_cons] at hch ⊢
          refine ⟨?_, hch.2⟩
          show b.1 ≤ rs
          have := hch.1
          omega
      · cases rest with
        | nil =>
          simp at hlast ⊢
          omega
        | cons b r2 =>
          rw [List.getLast?_cons_cons, List.getLast?_cons_cons]
          rw [List.getLast?_cons_cons] at hlast
          exact hlast
    · rw [if_neg heq]
      refine ⟨by simp, ?_, ?_, rfl⟩
      · rw [List.chain'_cons, List.chain'_cons]
        refine ⟨hre, ?_, hch⟩
        show last.1 ≤ rs
        omega
      · rw [List.getLast?_cons_cons, List.getLast?_cons_cons]
        exact hlast

theorem hlConsume_stOk (src : List Char) (s : HLState) (t : Token)
    (lx : Lexer) (st : Style) (hS : StOk src s) (hLx : LexOk src lx)
    (hT : TokOk src.length t) (hsp : lpOf s.lx ≤ t.spanStart)
    (hlp : lpOf lx = t.spanEnd) :
    StOk src ⟨lx, hlAdd s.sr t.spanStart t.spanEnd st⟩ := by
  obtain ⟨hL0, hne, hch, hlast, hsl⟩ := hS
  obtain ⟨hA, hB, hC, hD⟩ :=
    hlAdd_ok s.sr t.spanStart t.spanEnd st hne hch hlast
      (le_trans hsl hsp) hT.1
  refine ⟨hLx, hA, hB, hC, ?_⟩
  show srLast (hlAdd s.sr t.spanStart t.spanEnd st) ≤ lpOf lx
  omega

theorem hlDiscard_stOk (src : List Char) (s : HLState) (lx : Lexer)
    (hS : StOk src s) (hLx : LexOk src lx) (hmono : lpOf s.lx ≤ lpOf lx) :
    StOk src ⟨lx, s.sr⟩ :=
  ⟨hLx, hS.2.1, hS.2.2.1, hS.2.2.2.1, le_trans hS.2.2.2.2 hmono⟩

theorem hlTake_stOk (src : List Char) (k : TokenKind) (st : Style)
    (s : HLState) (hS : StOk src s) :
    StOk src (hlTake src k st s) ∧
      lpOf s.lx ≤ lpOf (hlTake src k st s).lx := by
  obtain ⟨hA, hB, hC⟩ := takeKind_ok src k s.lx hS.1
  unfold hlTake
  rcases htk : takeKind src k s.lx with ⟨o, lx1⟩
  rw [htk] at hA hB hC
  cases o with
  | none => exact ⟨hlDiscard_stOk src s lx1 hS hA hB, hB⟩
  | some t =>
    obtain ⟨hT, hk, hsp, hlp⟩ := hC t rfl
    exact ⟨hlConsume_stOk src s t lx1 st hS hA hT hsp hlp, hB⟩

theorem hlParseRange_stOk (src : List Char) (s : HLState) (hS : StOk src s) :
    StOk src (hlParseRange src s) ∧
      lpOf s.lx ≤ lpOf (hlParseRange src s).lx := by
  obtain ⟨hA, hB, hC⟩ := takeKind_ok src .openRange s.lx hS.1
  unfold hlParseRange
  rcases htk : takeKind src .openRange s.lx with ⟨o, lx1⟩
  rw [htk] at hA hB hC
  cases o with
  | none => exact ⟨hlDiscard_stOk src s lx1 hS hA hB, hB⟩
  | some t =>
    obtain ⟨hT, hk, hsp, hlp⟩ := hC t rfl
    have h1 : StOk src ⟨lx1, hlAdd s.sr t.spanStart t.spanEnd .id⟩ :=
      hlConsume_stOk src s t lx1 .id hS hA hT hsp hlp
    obtain ⟨h2, h2m⟩ := hlTake_stOk src .nb .id _ h1
    obtain ⟨h3, h3m⟩ := hlTake_stOk src .sepRange .id _ h2
    obtain ⟨h4, h4m⟩ := hlTake_stOk src .nb .id _ h3
    obtain ⟨h5, h5m⟩ := hlTake_stOk src .closeRange .id _ h4
    refine ⟨h5, ?_⟩
    exact le_trans hB (le_trans h2m (le_trans h3m (le_trans h4m h5m)))

theorem hlValueElem_stOk (src : List Char) (s : HLState) (hS : StOk src s) :
    StOk src (hlValueElem src s) ∧
      lpOf s.lx ≤ lpOf (hlValueElem src s).lx := by
  obtain ⟨hTok, hLx, hsp, hlp⟩ := lexNext_ok src s.lx hS.1
  have hm : lpOf s.lx ≤ lpOf (lexNext src s.lx).2 :=
    hsp.trans (hTok.1.trans (le_of_eq hlp.symm))
  simp only [hlValueElem]
  cases hk : (lexNext src s.lx).1.kind
  all_goals first
    | exact ⟨hlConsume_stOk src s (lexNext src s.lx).1 (lexNext src s.lx).2
        .nb hS hLx hTok hsp hlp, hm⟩
    | exact ⟨hlConsume_stOk src s (lexNext src s.lx).1 (lexNext src s.lx).2
        .str hS hLx hTok hsp hlp, hm⟩
    | exact ⟨hlDiscard_stOk src s (lexNext src s.lx).2 hS hLx hm, hm⟩

theorem hlListLoop_stOk (src : List Char) (fuel : Nat)
    (parse : HLState → HLState)
    (hP : ∀ s, StOk src s →
      StOk src (parse s) ∧ lpOf s.lx ≤ lpOf (parse s).lx)
    (s : HLState) (hS : StOk src s) :
    StOk src (hlListLoop src fuel parse s) ∧
      lpOf s.lx ≤ lpOf (hlListLoop src fuel parse s).lx := by
  induction fuel generalizing s with
  | zero => exact ⟨hS, le_refl _⟩
  | succ fuel ih =>
    obtain ⟨hA, hB, hC⟩ := takeKind_ok src .sepList s.lx hS.1
    unfold hlListLoop
    rcases htk : takeKind src .sepList s.lx with ⟨o, lx1⟩
    rw [htk] at hA hB hC
    cases o with
    | none => exact ⟨hlDiscard_stOk src s lx1 hS hA hB, hB⟩
    | some t =>
      have hs1 : StOk src (⟨lx1, s.sr⟩ : HLState) :=
        hlDiscard_stOk src s lx1 hS hA hB
      obtain ⟨hp1, hp1m⟩ := hP ⟨lx1, s.sr⟩ hs1
      obtain ⟨h2, h2m⟩ := ih (parse ⟨lx1, s.sr⟩) hp1
      exact ⟨h2, le_trans hB (le_trans hp1m h2m)⟩

theorem hlList_stOk (src : List Char) (fuel : Nat)
    (parse : HLState → HLState)
    (hP : ∀ s, StOk src s →
      StOk src (parse s) ∧ lpOf s.lx ≤ lpOf (parse s).lx)
    (s : HLState) (hS : StOk src s) :
    StOk src (hlList src fuel parse s) ∧
      lpOf s.lx ≤ lpOf (hlList src fuel parse s).lx := by
  obtain ⟨hTok, hL, hsp, hlp, hpe⟩ := lexPeek_ok src s.lx hS.1
  have hnx := lexNext_ok src (lexPeek src s.lx).2 hL
  have hmA : lpOf s.lx ≤ lpOf (lexPeek src s.lx).2 :=
    hsp.trans (le_of_eq hlp.symm)
  have hmB : lpOf s.lx ≤ lpOf (lexNext src (lexPeek src s.lx).2).2 :=
    hmA.trans (hnx.2.2.1.trans (hnx.1.1.trans (le_of_eq hnx.2.2.2.symm)))
  have go : ∀ lx0 : Lexer, LexOk src lx0 → lpOf s.lx ≤ lpOf lx0 →
      StOk src (⟨(takeKind src .openList (hlListLoop src fuel parse
            (parse ⟨(takeKind src .openList lx0).2, s.sr⟩)).lx).2,
          (hlListLoop src fuel parse
            (parse ⟨(takeKind src .openList lx0).2, s.sr⟩)).sr⟩ : HLState) ∧
        lpOf s.lx ≤ lpOf (takeKind src .openList (hlListLoop src fuel parse
            (parse ⟨(takeKind src .openList lx0).2, s.sr⟩)).lx).2 := by
    intro lx0 hLx0 hm0
    obtain ⟨hA1, hB1, hC1⟩ := takeKind_ok src .openList lx0 hLx0
    have hs1 : StOk src (⟨(takeKind src .openList lx0).2, s.sr⟩ : HLState) :=
      hlDiscard_stOk src s _ hS hA1 (hm0.trans hB1)
    obtain ⟨hp1, hp1m⟩ := hP _ hs1
    obtain ⟨h2, h2m⟩ := hlListLoop_stOk src fuel parse hP _ hp1
    obtain ⟨hA2, hB2, hC2⟩ := takeKind_ok src .openList
      (hlListLoop src fuel parse
        (parse ⟨(takeKind src .openList lx0).2, s.sr⟩)).lx h2.1
    refine ⟨hlDiscard_stOk src _ _ h2 hA2 hB2, ?_⟩
    exact le_trans hm0 (le_trans hB1 (le_trans hp1m (le_trans h2m hB2)))
  simp only [hlList]
  cases hk : (lexPeek src s.lx).1.kind
  all_goals first
    | exact go (lexNext src (lexPeek src s.lx).2).2 hnx.2.1 hmB
    | exact go (lexPeek src s.lx).2 hL hmA

theorem hlParseAction_stOk (src : List Char) (fuel : Nat) (s : HLState)
    (hS : StOk src s) :
    StOk src (hlParseAction src fuel s) ∧
      lpOf s.lx ≤ lpOf (hlParseAction src fuel s).lx := by
  obtain ⟨hTok, hLx, hsp, hlp⟩ := lexNext_ok src s.lx hS.1
  have hm1 : lpOf s.lx ≤ lpOf (lexNext src s.lx).2 :=
    hsp.trans (hTok.1.trans (le_of_eq hlp.symm))
  simp only [hlParseAction]
  by_cases hc : (lexNext src s.lx).1.kind = TokenKind.nb ∨
      (lexNext src s.lx).1.kind = TokenKind.str ∨
      (lexNext src s.lx).1.kind = TokenKind.id
  · rw [if_pos hc]
    have hs1 : StOk src (⟨(lexNext src s.lx).2,
        hlAdd s.sr (lexNext src s.lx).1.spanStart
          (lexNext src s.lx).1.spanEnd Style.id⟩ : HLState) :=
      hlConsume_stOk src s _ _ Style.id hS hLx hTok hsp hlp
    have hm1' : lpOf s.lx ≤ lpOf (⟨(lexNext src s.lx).2,
        hlAdd s.sr (lexNext src s.lx).1.spanStart
          (lexNext src s.lx).1.spanEnd Style.id⟩ : HLState).lx := hm1
    generalize hgen : (⟨(lexNext src s.lx).2,
        hlAdd s.sr (lexNext src s.lx).1.spanStart
          (lexNext src s.lx).1.spanEnd Style.id⟩ : HLState) = s1
      at hs1 hm1' ⊢
    obtain ⟨hs2, hs2m⟩ := hlParseRange_stOk src s1 hs1
    obtain ⟨hTok2, hL2, hsp2, hlp2, hpe2⟩ :=
      lexPeek_ok src (hlParseRange src s1).lx hs2.1
    have hnx2 := lexNext_ok src (lexPeek src (hlParseRange src s1).lx).2 hL2
    have hm2 : lpOf s.lx ≤ lpOf (hlParseRange src s1).lx := hm1'.trans hs2m
    have hmE : lpOf s.lx ≤ lpOf (lexPeek src (hlParseRange src s1).lx).2 :=
      hm2.trans (hsp2.trans (le_of_eq hlp2.symm))
    have hmC : lpOf s.lx ≤
        lpOf (lexNext src (lexPeek src (hlParseRange src s1).lx).2).2 :=
      hmE.trans (hnx2.2.2.1.trans (hnx2.1.1.trans (le_of_eq hnx2.2.2.2.symm)))
    have hcons : StOk src
        (⟨(lexNext src (lexPeek src (hlParseRange src s1).lx).2).2,
          hlAdd (hlParseRange src s1).sr
            (lexPeek src (hlParseRange src s1).lx).1.spanStart
            (lexPeek src (hlParseRange src s1).lx).1.spanEnd
            Style.action⟩ : HLState) := by
      refine hlConsume_stOk src (hlParseRange src s1) _ _ Style.action hs2
        hnx2.2.1 hTok2 hsp2 ?_
      have hsame := lexNext_peeked src (lexPeek src (hlParseRange src s1).lx).2
        (lexPeek src (hlParseRange src s1).lx).1 hpe2
      have hoff2 : (lexPeek src (hlParseRange src s1).lx).1.spanEnd =
          (lexPeek src (hlParseRange src s1).lx).2.offset :=
        (hL2.2 _ hpe2).2
      rw [hsame]
      show (lexPeek src (hlParseRange src s1).lx).2.offset =
        (lexPeek src (hlParseRange src s1).lx).1.spanEnd
      omega
    cases hk : (lexPeek src (hlParseRange src s1).lx).1.kind
    all_goals first
      | (obtain ⟨hfin, hfinm⟩ := hlList_stOk src fuel
          (hlTake src TokenKind.str Style.regex)
          (fun a ha => hlTake_stOk src TokenKind.str Style.regex a ha) _ hcons
         exact ⟨hfin, le_trans hmC hfinm⟩)
      | (obtain ⟨hfin, hfinm⟩ := hlList_stOk src fuel (hlValueElem src)
          (fun a ha => hlValueElem_stOk src a ha) _ hcons
         exact ⟨hfin, le_trans hmC hfinm⟩)
      | exact ⟨hlDiscard_stOk src (hlParseRange src s1)
          (lexPeek src (hlParseRange src s1).lx).2 hs2 hL2
          (hsp2.trans (le_of_eq hlp2.symm)), hmE⟩
  · rw [if_neg hc]
    have hs1 : StOk src (⟨(lexNext src s.lx).2, s.sr⟩ : HLState) :=
      hlDiscard_stOk src s _ hS hLx hm1
    have hm1' : lpOf s.lx ≤
        lpOf (⟨(lexNext src s.lx).2, s.sr⟩ : HLState).lx := hm1
    generalize hgen : (⟨(lexNext src s.lx).2, s.sr⟩ : HLState) = s1
      at hs1 hm1' ⊢
    obtain ⟨hs2, hs2m⟩ := hlParseRange_stOk src s1 hs1
    obtain ⟨hTok2, hL2, hsp2, hlp2, hpe2⟩ :=
      lexPeek_ok src (hlParseRange src s1).lx hs2.1
    have hnx2 := lexNext_ok src (lexPeek src (hlParseRange src s1).lx).2 hL2
    have hm2 : lpOf s.lx ≤ lpOf (hlParseRange src s1).lx := hm1'.trans hs2m
    have hmE : lpOf s.lx ≤ lpOf (lexPeek src (hlParseRange src s1).lx).2 :=
      hm2.trans (hsp2.trans (le_of_eq hlp2.symm))
    have hmC : lpOf s.lx ≤
        lpOf (lexNext src (lexPeek src (hlParseRange src s1).lx).2).2 :=
      hmE.trans (hnx2.2.2.1.trans (hnx2.1.1.trans (le_of_eq hnx2.2.2.2.symm)))
    have hcons : StOk src
        (⟨(lexNext src (lexPeek src (hlParseRange src s1).lx).2).2,
          hlAdd (hlParseRange src s1).sr
            (lexPeek src (hlParseRange src s1).lx).1.spanStart
            (lexPeek src (hlParseRange src s1).lx).1.spanEnd
            Style.action⟩ : HLState) := by
      refine hlConsume_stOk src (hlParseRange src s1) _ _ Style.action hs2
        hnx2.2.1 hTok2 hsp2 ?_
      have hsame := lexNext_peeked src (lexPeek src (hlParseRange src s1).lx).2
        (lexPeek src (hlParseRange src s1).lx).1 hpe2
      have hoff2 : (lexPeek src (hlParseRange src s1).lx).1.spanEnd =
          (lexPeek src (hlParseRange src s1).lx).2.offset :=
        (hL2.2 _ hpe2).2
      rw [hsame]
      show (lexPeek src (hlParseRange src s1).lx).2.offset =
        (lexPeek src (hlParseRange src s1).lx).1.spanEnd
      omega
    cases hk : (lexPeek src (hlParseRange src s1).lx).1.kind
    all_goals first
      | (obtain ⟨hfin, hfinm⟩ := hlList_stOk src fuel
          (hlTake src TokenKind.str Style.regex)
          (fun a ha => hlTake_stOk src TokenKind.str Style.regex a ha) _ hcons
         exact ⟨hfin, le_trans hmC hfinm⟩)
      | (obtain ⟨hfin, hfinm⟩ := hlList_stOk src fuel (hlValueElem src)
          (fun a ha => hlValueElem_stOk src a ha) _ hcons
         exact ⟨hfin, le_trans hmC hfinm⟩)
      | exact ⟨hlDiscard_stOk src (hlParseRange src s1)
          (lexPeek src (hlParseRange src s1).lx).2 hs2 hL2
          (hsp2.trans (le_of_eq hlp2.symm)), hmE⟩

theorem hlParseExpr_post (src : List Char) (fuel : Nat) (s : HLState)
    (hS : StOk src s) (hf : src.length - lpOf s.lx < fuel) :
    StOk src (hlParseExpr src fuel s) ∧
      ∃ rest, (hlParseExpr src fuel s).sr =
        (src.length, Style.none) :: (src.length, Style.none) :: rest := by
  induction fuel generalizing s with
  | zero => exact absurd hf (Nat.not_lt_zero _)
  | succ fuel ih =>
    obtain ⟨hA, hB, hC⟩ := takeKind_ok src TokenKind.not s.lx hS.1
    simp only [hlParseExpr]
    split
    next tN lx1 heq =>
      rw [heq] at hA hB hC
      obtain ⟨hT, hkN, hspN, hlpN⟩ := hC tN rfl
      have hne : tN.spanStart < tN.spanEnd := hT.2.2.2 (by simp [hkN])
      have hEl : tN.spanEnd ≤ src.length := hT.2.1
      have hnx := lexNext_ok src lx1 hA
      obtain ⟨hA2, hB2, hC2⟩ :=
        takeKind_ok src TokenKind.openExpr (lexNext src lx1).2 hnx.2.1
      have hm2 : lpOf lx1 ≤ lpOf (lexNext src lx1).2 :=
        hnx.2.2.1.trans (hnx.1.1.trans (le_of_eq hnx.2.2.2.symm))
      have hs3 : StOk src
          (⟨(takeKind src TokenKind.openExpr (lexNext src lx1).2).2,
            s.sr⟩ : HLState) :=
        hlDiscard_stOk src s _ hS hA2 ((hB.trans hm2).trans hB2)
      have hfl : src.length - lpOf
          ((⟨(takeKind src TokenKind.openExpr (lexNext src lx1).2).2,
            s.sr⟩ : HLState)).lx < fuel := by
        show src.length -
          lpOf (takeKind src TokenKind.openExpr (lexNext src lx1).2).2 < fuel
        have e1 : tN.spanEnd ≤
            lpOf (takeKind src TokenKind.openExpr (lexNext src lx1).2).2 :=
          le_trans (le_of_eq hlpN.symm) (hm2.trans hB2)
        omega
      obtain ⟨hR, hRsh⟩ := ih
        ⟨(takeKind src TokenKind.openExpr (lexNext src lx1).2).2, s.sr⟩
        hs3 hfl
      obtain ⟨hA4, hB4, hC4⟩ := takeKind_ok src TokenKind.closeExpr
        (hlParseExpr src fuel
          ⟨(takeKind src TokenKind.openExpr (lexNext src lx1).2).2,
            s.sr⟩).lx hR.1
      exact ⟨hlDiscard_stOk src _ _ hR hA4 hB4, hRsh⟩
    next lx1 heq1 =>
      rw [heq1] at hA hB hC
      obtain ⟨hA2, hB2, hC2⟩ := takeKind_ok src TokenKind.openExpr lx1 hA
      split
      next tO lx2 heq2 =>
        rw [heq2] at hA2 hB2 hC2
        obtain ⟨hT, hkO, hspO, hlpO⟩ := hC2 tO rfl
        have hne : tO.spanStart < tO.spanEnd := hT.2.2.2 (by simp [hkO])
        have hEl : tO.spanEnd ≤ src.length := hT.2.1
        have hBn : lpOf s.lx ≤ lpOf lx1 := hB
        have hlpOn : lpOf lx2 = tO.spanEnd := hlpO
        have hs3 : StOk src (⟨lx2, s.sr⟩ : HLState) :=
          hlDiscard_stOk src s lx2 hS hA2 (hB.trans hB2)
        have hfl : src.length - lpOf ((⟨lx2, s.sr⟩ : HLState)).lx < fuel := by
          show src.length - lpOf lx2 < fuel
          omega
        obtain ⟨hR, hRsh⟩ := ih ⟨lx2, s.sr⟩ hs3 hfl
        obtain ⟨hA4, hB4, hC4⟩ := takeKind_ok src TokenKind.closeExpr
          (hlParseExpr src fuel ⟨lx2, s.sr⟩).lx hR.1
        exact ⟨hlDiscard_stOk src _ _ hR hA4 hB4, hRsh⟩
      next lx2 heq2 =>
        rw [heq2] at hA2 hB2 hC2
        have hs2 : StOk src (⟨lx2, s.sr⟩ : HLState) :=
          hlDiscard_stOk src s lx2 hS hA2 (hB.trans hB2)
        obtain ⟨hact, hactm⟩ := hlParseAction_stOk src fuel ⟨lx2, s.sr⟩ hs2
        have hnx1 := lexNext_ok src
          (hlParseAction src fuel ⟨lx2, s.sr⟩).lx hact.1
        have e1 : lpOf s.lx ≤ lpOf lx2 := hB.trans hB2
        have e2 : lpOf lx2 ≤ lpOf (hlParseAction src fuel ⟨lx2, s.sr⟩).lx :=
          hactm
        have e3 : lpOf (hlParseAction src fuel ⟨lx2, s.sr⟩).lx ≤
            (lexNext src (hlParseAction src fuel ⟨lx2, s.sr⟩).lx).1.spanStart :=
          hnx1.2.2.1
        have e4 :
            (lexNext src (hlParseAction src fuel ⟨lx2, s.sr⟩).lx).1.spanEnd ≤
              src.length := hnx1.1.2.1
        have e5 : lpOf (lexNext src (hlParseAction src fuel ⟨lx2, s.sr⟩).lx).2 =
            (lexNext src (hlParseAction src fuel ⟨lx2, s.sr⟩).lx).1.spanEnd :=
          hnx1.2.2.2
        split
        next op heq3 =>
          have hne :
              (lexNext src (hlParseAction src fuel ⟨lx2, s.sr⟩).lx).1.spanStart <
                (lexNext src (hlParseAction src fuel ⟨lx2, s.sr⟩).lx).1.spanEnd :=
            hnx1.1.2.2.2 (by simp [heq3])
          have hcons := hlConsume_stOk src
            (hlParseAction src fuel ⟨lx2, s.sr⟩) _ _ Style.logi hact
            hnx1.2.1 hnx1.1 hnx1.2.2.1 hnx1.2.2.2
          exact ih _ hcons (by
            show src.length -
              lpOf (lexNext src (hlParseAction src fuel ⟨lx2, s.sr⟩).lx).2 < fuel
            omega)
        next heq3 =>
          have hsS :
              (lexNext src (hlParseAction src fuel ⟨lx2, s.sr⟩).lx).1.spanStart =
                src.length := hnx1.1.2.2.1 heq3
          have hsE :
              (lexNext src (hlParseAction src fuel ⟨lx2, s.sr⟩).lx).1.spanEnd =
                src.length := by
            have := hnx1.1.1
            omega
          refine ⟨hlConsume_stOk src (hlParseAction src fuel ⟨lx2, s.sr⟩) _ _
            Style.none hact hnx1.2.1 hnx1.1 hnx1.2.2.1 hnx1.2.2.2, ?_⟩
          have hsh : ∃ r2, hlAdd (hlParseAction src fuel ⟨lx2, s.sr⟩).sr
              (lexNext src (hlParseAction src fuel ⟨lx2, s.sr⟩).lx).1.spanStart
              (lexNext src (hlParseAction src fuel ⟨lx2, s.sr⟩).lx).1.spanEnd
              Style.none =
              (src.length, Style.none) :: (src.length, Style.none) :: r2 := by
            rw [hsS, hsE]
            rcases hsr : (hlParseAction src fuel ⟨lx2, s.sr⟩).sr with
              _ | ⟨last, rest⟩
            · exact absurd hsr hact.2.1
            · simp only [hlAdd]
              by_cases hL : last.1 = src.length
              · rw [if_pos hL]
                exact ⟨rest, rfl⟩
              · rw [if_neg hL]
                exact ⟨last :: rest, rfl⟩
          exact hsh
        next hne1 hne2 =>
          have hne :
              (lexNext src (hlParseAction src fuel ⟨lx2, s.sr⟩).lx).1.spanStart <
                (lexNext src (hlParseAction src fuel ⟨lx2, s.sr⟩).lx).1.spanEnd := by
            refine hnx1.1.2.2.2 ?_
            intro hke
            exact hne2 hke
          have hdisc : StOk src
              (⟨(lexNext src (hlParseAction src fuel ⟨lx2, s.sr⟩).lx).2,
                (hlParseAction src fuel ⟨lx2, s.sr⟩).sr⟩ : HLState) :=
            hlDiscard_stOk src (hlParseAction src fuel ⟨lx2, s.sr⟩) _ hact
              hnx1.2.1 (hnx1.2.2.1.trans (hnx1.1.1.trans (le_of_eq
                hnx1.2.2.2.symm)))
          exact ih _ hdisc (by
            show src.length -
              lpOf (lexNext src (hlParseAction src fuel ⟨lx2, s.sr⟩).lx).2 < fuel
            omega)

theorem moveLeft_some (styles : List (Nat × Style)) (pos : Nat)
    (h0 : ∀ p : Nat × Style, styles[0]? = some p → p.1 ≤ pos) :
    ∀ idx, idx < styles.length →
      ∃ i1, moveLeft styles pos idx = some i1 ∧ i1 ≤ idx := by
  intro idx
  induction idx with
  | zero =>
    intro h
    rcases hq : styles[0]? with _ | p
    · rw [List.getElem?_eq_none_iff] at hq
      omega
    · have hp := h0 p hq
      refine ⟨0, ?_, le_refl 0⟩
      simp only [moveLeft, hq]
      rw [if_neg (by omega)]
  | succ idx ih =>
    intro h
    rcases hq : styles[idx + 1]? with _ | p
    · rw [List.getElem?_eq_none_iff] at hq
      omega
    · simp only [moveLeft, hq]
      by_cases hc : pos < p.1
      · rw [if_pos hc]
        obtain ⟨i1, hi1, hle⟩ := ih (by omega)
        exact ⟨i1, hi1, by omega⟩
      · rw [if_neg hc]
        exact ⟨idx + 1, rfl, le_refl _⟩

theorem moveRight_some (styles : List (Nat × Style)) (pos : Nat)
    (hlast : ∀ p : Nat × Style,
      styles[styles.length - 1]? = some p → pos < p.1) :
    ∀ fuel idx, idx + 1 < styles.length → styles.length - idx ≤ fuel →
      ∃ i2, moveRight styles pos fuel idx = some i2 ∧
        i2 + 1 < styles.length := by
  intro fuel
  induction fuel with
  | zero =>
    intro idx h1 h2
    exact absurd h2 (by omega)
  | succ fuel ih =>
    intro idx h1 h2
    have hidx : idx < styles.length := by omega
    rcases hq : styles[idx + 1]? with _ | q
    · rw [List.getElem?_eq_none_iff] at hq
      omega
    · simp only [moveRight, hq]
      rw [if_pos hidx]
      by_cases hc : q.1 ≤ pos
      · rw [if_pos hc]
        have hne : idx + 1 ≠ styles.length - 1 := by
          intro he
          have hq2 : styles[styles.length - 1]? = some q := by
            rw [← he]
            exact hq
          have := hlast q hq2
          omega
        exact ih (idx + 1) (by omega) (by omega)
      · rw [if_neg hc]
        exact ⟨idx, rfl, h1⟩

theorem styleFn_total (styles : List (Nat × Style)) (pos idx : Nat)
    (h0 : ∀ p : Nat × Style, styles[0]? = some p → p.1 ≤ pos)
    (hlast : ∀ p : Nat × Style,
      styles[styles.length - 1]? = some p → pos < p.1)
    (hidx : idx + 1 < styles.length) :
    ∃ st i2, styleFn styles idx pos = some (st, i2) ∧
      i2 + 1 < styles.length := by
  obtain ⟨i1, hi1, hle⟩ := moveLeft_some styles pos h0 idx (by omega)
  obtain ⟨i2, hi2, h2⟩ := moveRight_some styles pos hlast
    (styles.length + 1) i1 (by omega) (by omega)
  rcases hq : styles[i2]? with _ | p
  · rw [List.getElem?_eq_none_iff] at hq
    exact absurd hq (by omega)
  · refine ⟨p.2, i2, ?_, h2⟩
    simp only [styleFn, hi1, hi2, hq]

/-- C7: the spec says the highlighter break-points strictly increase; on the
source "0" the code stores positions 0, 1, 1 — Highlighter::new always ends
by pushing the end-of-input span twice over (once for the token span, once
for the final (end, None) entry), duplicating the last position — so strict
increase fails. -/
theorem highlighter_strict_increase_counterexample :
    Highlighter.new "0".toList =
      [(0, Style.id), (1, Style.none), (1, Style.none)] ∧
    ¬ List.Chain' (fun a b : Nat × Style => a.1 < b.1)
        (Highlighter.new "0".toList) := by
  constructor
  · decide
  · intro h
    rw [show Highlighter.new "0".toList =
      [(0, Style.id), (1, Style.none), (1, Style.none)] from by decide] at h
    rw [List.chain'_cons, List.chain'_cons] at h
    exact absurd h.2.1 (by decide)

/-- C7 (amended): for every source the Highlighter break-point list has at
least two entries, starts at position 0, has non-decreasing (not strictly
increasing) positions, and its final TWO entries both sit at the source
length, so the break-points cover [0, len); and style(pos) is total — the
cursor moves stay in bounds and land on a style — for every pos < len from
every in-range cursor, on malformed sources as well. -/
theorem highlighter_break_points (src : List Char) :
    2 ≤ (Highlighter.new src).length ∧
    (∀ p : Nat × Style, (Highlighter.new src)[0]? = some p → p.1 = 0) ∧
    List.Chain' (fun a b : Nat × Style => a.1 ≤ b.1) (Highlighter.new src) ∧
    (Highlighter.new src)[(Highlighter.new src).length - 1]? =
      some (src.length, Style.none) ∧
    (Highlighter.new src)[(Highlighter.new src).length - 2]? =
      some (src.length, Style.none) ∧
    ∀ pos idx, pos < src.length → idx + 1 < (Highlighter.new src).length →
      ∃ st i2, styleFn (Highlighter.new src) idx pos = some (st, i2) ∧
        i2 + 1 < (Highlighter.new src).length := by
  have hS0 : StOk src (⟨Lexer.load, [(0, Style.none)]⟩ : HLState) :=
    ⟨⟨Nat.zero_le _, fun t ht => Option.noConfusion ht⟩, by simp,
      List.chain'_singleton _, by simp, Nat.le_refl 0⟩
  have hf0 : src.length -
      lpOf ((⟨Lexer.load, [(0, Style.none)]⟩ : HLState)).lx <
        src.length + 2 := by
    show src.length - 0 < src.length + 2
    omega
  obtain ⟨hstok, rest, hsh⟩ := hlParseExpr_post src (src.length + 2)
    ⟨Lexer.load, [(0, Style.none)]⟩ hS0 hf0
  have hH : Highlighter.new src = (hlParseExpr src (src.length + 2)
      (⟨Lexer.load, [(0, Style.none)]⟩ : HLState)).sr.reverse := rfl
  have hgl := hstok.2.2.2.1
  have hch := hstok.2.2.1
  generalize hR : (hlParseExpr src (src.length + 2)
      (⟨Lexer.load, [(0, Style.none)]⟩ : HLState)).sr = R at hsh hgl hch hH
  have hlen : R.length = rest.length + 2 := by
    rw [hsh]
    simp
  have ha : 2 ≤ (Highlighter.new src).length := by
    rw [hH, List.length_reverse]
    omega
  have hb : ∀ p : Nat × Style,
      (Highlighter.new src)[0]? = some p → p.1 = 0 := by
    intro p hp
    rw [hH, ← List.head?_eq_getElem?, List.head?_reverse] at hp
    rw [hp] at hgl
    simpa using hgl
  have hc : List.Chain' (fun a b : Nat × Style => a.1 ≤ b.1)
      (Highlighter.new src) := by
    rw [hH]
    exact List.chain'_reverse.mpr hch
  have hd1 : (Highlighter.new src)[(Highlighter.new src).length - 1]? =
      some (src.length, Style.none) := by
    rw [hH, List.length_reverse,
      List.getElem?_reverse (by omega : R.length - 1 < R.length)]
    have he : R.length - 1 - (R.length - 1) = 0 := by omega
    rw [he, hsh]
    rfl
  have hd2 : (Highlighter.new src)[(Highlighter.new src).length - 2]? =
      some (src.length, Style.none) := by
    rw [hH, List.length_reverse,
      List.getElem?_reverse (by omega : R.length - 2 < R.length)]
    have he : R.length - 1 - (R.length - 2) = 1 := by omega
    rw [he, hsh]
    simp
  refine ⟨ha, hb, hc, hd1, hd2, ?_⟩
  intro pos idx hpos hidx
  apply styleFn_total
  · intro p hp
    have := hb p hp
    omega
  · intro p hp
    rw [hd1] at hp
    injection hp with hp
    rw [← hp]
    exact hpos
  · exact hidx

/-- C7 witness: the amended theorem instantiated at source "0", position 0,
cursor 0 — the style lookup succeeds and keeps the cursor in range. -/
theorem highlighter_break_points_witness :
    ∃ st i2, styleFn (Highlighter.new "0".toList) 0 0 = some (st, i2) ∧
      i2 + 1 < (Highlighter.new "0".toList).length := by
  obtain ⟨h1, h2, h3, h4, h5, h6⟩ := highlighter_break_points "0".toList
  exact h6 0 0 (by decide) (by omega)

end HighlighterLemmas

end Csvex
